import Mathlib

/-!
# Trace pruning and history keepers of `ah`

A shallow embedding of `app/commands/gc.go`, `app/historyentries/keeper.go` and
`app/history_entries/history_processor.go`.

Conventions of the embedding.

* A Go run-time failure (a `panic`) is a value of `GoPanic`; a function that can
  fail returns `Except GoPanic _`.
* `int64` arithmetic on unix times wraps modulo `2 ^ 64` (`wrapInt64`), and so do
  the `int` arithmetic of `Tail` on its caller-supplied count and the buffer length
  that `rangeKeeper.Init` computes from the caller-supplied limits.  `currentIndex`
  counts commits and stays below `2 ^ 63`, so arithmetic on it is exact.
* The library function `make` is `makeSlice`: it fails for a negative length and
  for a length above `makeLimit`, the largest length the platform allocates.  The
  methods `Init` take `makeLimit` as a parameter.  `InitUnbounded` is `Init`
  without these two limits (exact length, every non-negative length allocated); it
  agrees with `Init` whenever the length fits `int` and is within `makeLimit`
  (`rangeKeeper_Init_eq_InitUnbounded`, `allKeeper_Init_eq_InitUnbounded`), and the
  operations `ops` are built on it, the operations `opsOn` on `Init`.
* A pointer into a keeper is a value of `Ptr`; writing through the pointer is an
  explicit update of the keeper.
* A channel is the list of the values sent on it; the goroutine of
  `processHistories` is a function of what it receives until the channel is closed.
-/

namespace Ah

/-- Run-time failures of the Go program. -/
inductive GoPanic where
  | cannotFetchTraceFilenames
  | sliceBoundsOutOfRange
  | indexOutOfRange
  | makeSliceLenOutOfRange
  | nilDereference
  | unknownGetCommandsMode
  deriving DecidableEq, Repr

deriving instance DecidableEq for Except

/-- The two-complement wrap-around of a mathematical integer into the `int64` range. -/
def wrapInt64 (x : Int) : Int :=
  (x + 9223372036854775808) % 18446744073709551616 - 9223372036854775808

/-- Membership in the range of `int64` (and of `int` on a 64-bit platform). -/
def IsInt64 (x : Int) : Prop :=
  -9223372036854775808 ≤ x ∧ x < 9223372036854775808

instance (x : Int) : Decidable (IsInt64 x) := by
  unfold IsInt64; infer_instance

/-! ## `app/commands/gc.go` -/

namespace commands

/-- The part of `os.FileInfo` the collector reads: `Name()` and `ModTime().Unix()`. -/
structure FileInfo where
  name : String
  modTime : Int
  deriving DecidableEq, Repr, Inhabited

/-- The type `GcType` is `uint8`; a value is kept as its number. -/
abbrev GcType := Nat

def GcAll : GcType := 0
def GcKeepLatest : GcType := 1
def GcOlderThan : GcType := 2

def secondsInDay : Int := 60 * 60 * 24

structure fileInfoSorter where
  content : List FileInfo
  deriving Repr

namespace fileInfoSorter

def Len (fis : fileInfoSorter) : Nat := fis.content.length

/-- The ordering handed to `sort.Sort`; both indices are below `Len` there. -/
def Less (fis : fileInfoSorter) (i j : Nat) : Bool :=
  decide ((fis.content.getD i default).modTime < (fis.content.getD j default).modTime)

def Swap (fis : fileInfoSorter) (i j : Nat) : fileInfoSorter :=
  ⟨(fis.content.set i (fis.content.getD j default)).set j (fis.content.getD i default)⟩

end fileInfoSorter

/-- The loop of the library function `sort.Search`: `i, j := 0, n`, and while
`i < j` the midpoint `h = (i + j) / 2` is probed.  One unit of fuel is one
iteration. -/
def searchLoop (f : Nat → Bool) : Nat → Nat → Nat → Nat
  | 0, i, _ => i
  | fuel + 1, i, j =>
    if i < j then
      let h := (i + j) / 2
      if !f h then searchLoop f fuel (h + 1) j else searchLoop f fuel i h
    else i

/-- The library function `sort.Search(n, f)`; `n` iterations always suffice
(`searchLoop_fuel`). -/
def Search (n : Nat) (f : Nat → Bool) : Nat := searchLoop f n 0 n

namespace fileInfoSorter

/-- The method `YoungerThan`: `sort.Search` for the first index whose record is
modified after `timestamp`, and the slice of `content` before it.  The probes
of `sort.Search` are below `len(content)`. -/
def YoungerThan (fis : fileInfoSorter) (timestamp : Int) : List FileInfo :=
  let binarySearchFunc := fun (i : Nat) =>
    decide ((fis.content.getD i default).modTime > timestamp)
  let index := Search fis.content.length binarySearchFunc
  fis.content.take index

/-- The method `Tail`: `content` itself when `first >= len(content)`, else
`content[len(content)-first:]`, which fails when the lower bound is not in
`0 .. len(content)`. -/
def Tail (fis : fileInfoSorter) (first : Int) : Except GoPanic (List FileInfo) :=
  if first ≥ (fis.content.length : Int) then .ok fis.content
  else
    let low := wrapInt64 ((fis.content.length : Int) - first)
    if 0 ≤ low ∧ low ≤ (fis.content.length : Int) then .ok (fis.content.drop low.toNat)
    else .error GoPanic.sliceBoundsOutOfRange

end fileInfoSorter

/-- What the library function `sort.Sort` guarantees for a `fileInfoSorter`: the
result is a rearrangement of the input in which no record is `Less` than a record
before it.  The order of records with equal modification time is not determined. -/
structure SortContract (sortSort : List FileInfo → List FileInfo) : Prop where
  perm : ∀ l, (sortSort l).Perm l
  sorted : ∀ l i j, i < j → j < (sortSort l).length →
    fileInfoSorter.Less ⟨sortSort l⟩ j i = false

/-- Insertion of a record before the first record it is `Less` than. -/
def orderedInsert (a : FileInfo) : List FileInfo → List FileInfo
  | [] => [a]
  | b :: l => if a.modTime < b.modTime then a :: b :: l else b :: orderedInsert a l

/-- An insertion sort by `Less`: one function that meets `SortContract`
(`insertionSort_contract`). -/
def insertionSort : List FileInfo → List FileInfo
  | [] => []
  | a :: l => orderedInsert a (insertionSort l)

/-- The cutoff of `GcOlderThan`: `time.Now().Unix() - secondsInDay*int64(param)`
in `int64` arithmetic. -/
def cutoff (now param : Int) : Int :=
  wrapInt64 (now - wrapInt64 (secondsInDay * param))

/-- The function `GC`.  `sortSort` is the library sort, `now` is
`time.Now().Unix()`, `fetched` is the result of `env.GetTraceFilenames()`
(`none` when it returns an error).  The value `.ok l` says that the closing loop
ran over `l`: for each record of `l`, in order, one `Remove file` log event and
one `os.Remove` call.  A failure happens before that loop, so `.error _` says
that nothing was logged and nothing removed. -/
def GC (sortSort : List FileInfo → List FileInfo) (gcType : GcType) (param : Int)
    (now : Int) (fetched : Option (List FileInfo)) : Except GoPanic (List FileInfo) :=
  match fetched with
  | none => .error GoPanic.cannotFetchTraceFilenames
  | some fileInfos =>
    let infoSorter : fileInfoSorter := ⟨sortSort fileInfos⟩
    if gcType = GcKeepLatest then infoSorter.Tail param
    else if gcType = GcOlderThan then .ok (infoSorter.YoungerThan (cutoff now param))
    else .ok infoSorter.content

/-- The listing of the worked example of the spec: files `a`, `b`, `c` modified at
unix times 100, 200, 300. -/
def exampleListing : List FileInfo := [⟨"a", 100⟩, ⟨"b", 200⟩, ⟨"c", 300⟩]

/-- What a run of `GC` does to its environment: the `filename` fields of the
`Remove file` log events and the arguments of `os.Remove`, both in the order of the
closing loop, and the failure the run ended with, if any. -/
structure GcRun where
  logged : List String
  removed : List String
  failure : Option GoPanic
  deriving DecidableEq, Repr

/-- The effects of `GC`; `GetTraceFileName` is `env.GetTraceFileName`.  The only
statements of `GC` with an effect on the log or on the files are the two of the
closing loop, which every failure of `GC` precedes. -/
def GCRun (sortSort : List FileInfo → List FileInfo) (GetTraceFileName : String → String)
    (gcType : GcType) (param : Int) (now : Int) (fetched : Option (List FileInfo)) : GcRun :=
  match GC sortSort gcType param now fetched with
  | .error err => ⟨[], [], some err⟩
  | .ok fileInfos =>
    ⟨fileInfos.map (fun info => info.name),
      fileInfos.map (fun info => GetTraceFileName info.name), none⟩

/-- The listing of the trace directory after the records of `removed` are deleted
from it. -/
def listingAfter (listing removed : List FileInfo) : List FileInfo :=
  listing.filter (fun r => decide (r ∉ removed))

end commands

/-! ## `app/historyentries/keeper.go` -/

namespace historyentries

/-- Modelled from the spec: the type `HistoryEntry` is declared outside the
given sources; section 3 of the spec gives it an opaque payload, the sequence
number `number` (a `uint` in `preciseNumberKeeper.Continue`) and the flag
`hasHistory`. -/
structure HistoryEntry where
  number : Nat
  payload : String
  hasHistory : Bool
  deriving DecidableEq, Repr

/-- The zero value `HistoryEntry{}`. -/
def HistoryEntry.zero : HistoryEntry := ⟨0, String.mk [], false⟩

instance : Inhabited HistoryEntry := ⟨HistoryEntry.zero⟩

/-- A value of type `*HistoryEntry` held by a keeper or by its caller: `nil`, the
entry allocated by `new(HistoryEntry)` in `Init`, or `&entries[i]`. -/
inductive Ptr where
  | null
  | object
  | element (i : Nat)
  deriving DecidableEq, Repr

/-- The library function `make([]HistoryEntry, n)`: it fails for a negative length
and for a length above `makeLimit`, the largest length the platform allocates, and
returns `n` zero entries otherwise. -/
def makeSlice (makeLimit : Nat) (n : Int) : Except GoPanic (List HistoryEntry) :=
  if n < 0 ∨ (makeLimit : Int) < n then .error GoPanic.makeSliceLenOutOfRange
  else .ok (List.replicate n.toNat HistoryEntry.zero)

/-- The method set of the interface `Keeper` over a keeper state `σ` with results
of type `ρ`, together with `store`, the write of the caller through a pointer
that `Init` or `Commit` returned. -/
structure KeeperOps (σ ρ : Type) where
  Init : σ → Except GoPanic (σ × Ptr)
  Commit : σ → Ptr → Except GoPanic (σ × Ptr)
  Continue : σ → Except GoPanic Bool
  Result : σ → Except GoPanic ρ
  store : σ → Ptr → HistoryEntry → Except GoPanic σ

/-! ### `singleKeeper` and `preciseNumberKeeper` -/

structure singleKeeper where
  current : Ptr
  object : HistoryEntry
  deriving DecidableEq, Repr

/-- The value `new(singleKeeper)`. -/
def singleKeeper.new : singleKeeper := ⟨Ptr.null, HistoryEntry.zero⟩

namespace singleKeeper

/-- The read `*p` of a pointer of this keeper. -/
def load (sk : singleKeeper) : Ptr → Except GoPanic HistoryEntry
  | Ptr.null => .error GoPanic.nilDereference
  | Ptr.object => .ok sk.object
  | Ptr.element _ => .error GoPanic.indexOutOfRange

/-- The write `*p = e` of the caller. -/
def store (sk : singleKeeper) : Ptr → HistoryEntry → Except GoPanic singleKeeper
  | Ptr.null, _ => .error GoPanic.nilDereference
  | Ptr.object, e => .ok { sk with object := e }
  | Ptr.element _, _ => .error GoPanic.indexOutOfRange

def Init (sk : singleKeeper) : Except GoPanic (singleKeeper × Ptr) :=
  .ok ({ sk with current := Ptr.object, object := HistoryEntry.zero }, Ptr.object)

def Commit (sk : singleKeeper) (_event : Ptr) : Except GoPanic (singleKeeper × Ptr) :=
  .ok (sk, sk.current)

def Continue (_sk : singleKeeper) : Except GoPanic Bool := .ok true

def Result (sk : singleKeeper) : Except GoPanic HistoryEntry := sk.load sk.current

def ops : KeeperOps singleKeeper HistoryEntry :=
  ⟨Init, Commit, Continue, Result, store⟩

end singleKeeper

/-- The struct `preciseNumberKeeper`; `base` is its embedded `singleKeeper`. -/
structure preciseNumberKeeper where
  base : singleKeeper
  preciseNumber : Nat
  deriving DecidableEq, Repr

/-- The value `new(preciseNumberKeeper)`. -/
def preciseNumberKeeper.new : preciseNumberKeeper := ⟨singleKeeper.new, 0⟩

namespace preciseNumberKeeper

def store (pnk : preciseNumberKeeper) (p : Ptr) (e : HistoryEntry) :
    Except GoPanic preciseNumberKeeper :=
  match pnk.base.store p e with
  | .ok sk => .ok { pnk with base := sk }
  | .error err => .error err

/-- The promoted method `singleKeeper.Init`. -/
def Init (pnk : preciseNumberKeeper) : Except GoPanic (preciseNumberKeeper × Ptr) :=
  match pnk.base.Init with
  | .ok (sk, p) => .ok ({ pnk with base := sk }, p)
  | .error err => .error err

def Commit (pnk : preciseNumberKeeper) (event : Ptr) :
    Except GoPanic (preciseNumberKeeper × Ptr) :=
  match pnk.base.Commit event with
  | .ok (sk, p) => .ok ({ pnk with base := sk }, p)
  | .error err => .error err

def Continue (pnk : preciseNumberKeeper) : Except GoPanic Bool :=
  match pnk.base.load pnk.base.current with
  | .ok e => .ok (e.number != pnk.preciseNumber)
  | .error err => .error err

/-- The promoted method `singleKeeper.Result`. -/
def Result (pnk : preciseNumberKeeper) : Except GoPanic HistoryEntry :=
  pnk.base.Result

/-- The method `SetNumber`: the conversion `uint(number)` is the residue modulo `2 ^ 64`. -/
def SetNumber (pnk : preciseNumberKeeper) (number : Int) : preciseNumberKeeper :=
  { pnk with preciseNumber := (number % 18446744073709551616).toNat }

def ops : KeeperOps preciseNumberKeeper HistoryEntry :=
  ⟨Init, Commit, Continue, Result, store⟩

end preciseNumberKeeper

/-! ### `allKeeper` -/

/-- The struct `allKeeper`, with `forwarded`, the pointers sent on `historyChannel`
so far.  `Ptr.element i` is `&entries[i]` of the present `entries`. -/
structure allKeeper where
  currentIndex : Int
  entries : List HistoryEntry
  forwarded : List Ptr
  deriving DecidableEq, Repr

/-- The value `new(allKeeper)`. -/
def allKeeper.new : allKeeper := ⟨0, [], []⟩

namespace allKeeper

def store (ak : allKeeper) : Ptr → HistoryEntry → Except GoPanic allKeeper
  | Ptr.null, _ => .error GoPanic.nilDereference
  | Ptr.object, _ => .error GoPanic.nilDereference
  | Ptr.element i, e =>
    if i < ak.entries.length then .ok { ak with entries := ak.entries.set i e }
    else .error GoPanic.indexOutOfRange

/-- The method `Init`; `historyEventsCapacity` is the package variable of that name:
`make` and then the address of slot 0, which fails for an empty buffer. -/
def Init (makeLimit : Nat) (historyEventsCapacity : Int) (ak : allKeeper) :
    Except GoPanic (allKeeper × Ptr) :=
  match makeSlice makeLimit historyEventsCapacity with
  | .error err => .error err
  | .ok entries =>
    if 0 < entries.length then .ok ({ ak with entries := entries }, Ptr.element 0)
    else .error GoPanic.indexOutOfRange

/-- The method `Init` on a platform that allocates every non-negative length. -/
def InitUnbounded (historyEventsCapacity : Int) (ak : allKeeper) :
    Except GoPanic (allKeeper × Ptr) :=
  if historyEventsCapacity < 0 then .error GoPanic.makeSliceLenOutOfRange
  else
    let entries := List.replicate historyEventsCapacity.toNat HistoryEntry.zero
    if 0 < entries.length then .ok ({ ak with entries := entries }, Ptr.element 0)
    else .error GoPanic.indexOutOfRange

def Commit (ak : allKeeper) (event : Ptr) : Except GoPanic (allKeeper × Ptr) :=
  let forwarded := ak.forwarded ++ [event]
  let currentIndex := ak.currentIndex + 1
  let entries :=
    if currentIndex = (ak.entries.length : Int) then ak.entries ++ [HistoryEntry.zero]
    else ak.entries
  if 0 ≤ currentIndex ∧ currentIndex < (entries.length : Int) then
    .ok (⟨currentIndex, entries, forwarded⟩, Ptr.element currentIndex.toNat)
  else .error GoPanic.indexOutOfRange

def Continue (_ak : allKeeper) : Except GoPanic Bool := .ok true

/-- The method `Result`: `entries[:currentIndex]`.  The bound is checked against the
length; in a state built by `Init` and `Commit` the index is below it. -/
def Result (ak : allKeeper) : Except GoPanic (List HistoryEntry) :=
  if 0 ≤ ak.currentIndex ∧ ak.currentIndex ≤ (ak.entries.length : Int) then
    .ok (ak.entries.take ak.currentIndex.toNat)
  else .error GoPanic.sliceBoundsOutOfRange

/-- The operations of the keeper on a platform that allocates every non-negative
length. -/
def ops (historyEventsCapacity : Int) : KeeperOps allKeeper (List HistoryEntry) :=
  ⟨InitUnbounded historyEventsCapacity, Commit, Continue, Result, store⟩

/-- The operations of the keeper on a platform with the allocation limit
`makeLimit`. -/
def opsOn (makeLimit : Nat) (historyEventsCapacity : Int) :
    KeeperOps allKeeper (List HistoryEntry) :=
  ⟨Init makeLimit historyEventsCapacity, Commit, Continue, Result, store⟩

end allKeeper

/-! ### `rangeKeeper` -/

/-- The struct `rangeKeeper`, with `object`, the entry allocated by
`new(HistoryEntry)` in `Init`, and `forwarded`, the pointers sent on
`historyChannel` so far. -/
structure rangeKeeper where
  current : Ptr
  currentIndex : Int
  start : Int
  finish : Int
  entries : List HistoryEntry
  object : HistoryEntry
  forwarded : List Ptr
  deriving DecidableEq, Repr

/-- The value `new(rangeKeeper)`. -/
def rangeKeeper.new : rangeKeeper := ⟨Ptr.null, 0, 0, 0, [], HistoryEntry.zero, []⟩

namespace rangeKeeper

def load (rk : rangeKeeper) : Ptr → Except GoPanic HistoryEntry
  | Ptr.null => .error GoPanic.nilDereference
  | Ptr.object => .ok rk.object
  | Ptr.element i =>
    match rk.entries.get? i with
    | some e => .ok e
    | none => .error GoPanic.indexOutOfRange

def store (rk : rangeKeeper) : Ptr → HistoryEntry → Except GoPanic rangeKeeper
  | Ptr.null, _ => .error GoPanic.nilDereference
  | Ptr.object, e => .ok { rk with object := e }
  | Ptr.element i, e =>
    if i < rk.entries.length then .ok { rk with entries := rk.entries.set i e }
    else .error GoPanic.indexOutOfRange

def SetLimits (rk : rangeKeeper) (start finish : Int) : rangeKeeper :=
  { rk with start := start, finish := finish }

/-- The method `Init`: `make` with the length `finish-start+1` in `int` arithmetic,
then a new entry as the current slot. -/
def Init (makeLimit : Nat) (rk : rangeKeeper) : Except GoPanic (rangeKeeper × Ptr) :=
  match makeSlice makeLimit (wrapInt64 (rk.finish - rk.start + 1)) with
  | .error err => .error err
  | .ok entries =>
    .ok ({ rk with
            entries := entries,
            object := HistoryEntry.zero,
            current := Ptr.object }, Ptr.object)

/-- The method `Init` with the exact length `finish-start+1` on a platform that
allocates every non-negative length. -/
def InitUnbounded (rk : rangeKeeper) : Except GoPanic (rangeKeeper × Ptr) :=
  if rk.finish - rk.start + 1 < 0 then .error GoPanic.makeSliceLenOutOfRange
  else
    .ok ({ rk with
            entries := List.replicate (rk.finish - rk.start + 1).toNat HistoryEntry.zero,
            object := HistoryEntry.zero,
            current := Ptr.object }, Ptr.object)

def Commit (rk : rangeKeeper) (event : Ptr) : Except GoPanic (rangeKeeper × Ptr) :=
  let rk1 := { rk with forwarded := rk.forwarded ++ [event] }
  if rk1.start ≤ rk1.currentIndex ∧ rk1.currentIndex ≤ rk1.finish then
    match rk1.load rk1.current with
    | .error err => .error err
    | .ok e =>
      let i := (rk1.currentIndex - rk1.start).toNat
      if i < rk1.entries.length then
        let rk2 := { rk1 with entries := rk1.entries.set i e }
        if i + 1 < rk2.entries.length then
          let rk3 := { rk2 with current := Ptr.element (i + 1) }
          .ok ({ rk3 with currentIndex := rk3.currentIndex + 1 }, Ptr.element (i + 1))
        else .error GoPanic.indexOutOfRange
      else .error GoPanic.indexOutOfRange
  else .ok ({ rk1 with currentIndex := rk1.currentIndex + 1 }, rk1.current)

def Continue (rk : rangeKeeper) : Except GoPanic Bool :=
  .ok (decide (rk.currentIndex < rk.finish))

/-- The method `Result`: `entries[:currentIndex-start]`; the buffer made by `Init`
has its capacity equal to its length. -/
def Result (rk : rangeKeeper) : Except GoPanic (List HistoryEntry) :=
  if 0 ≤ rk.currentIndex - rk.start ∧ rk.currentIndex - rk.start ≤ (rk.entries.length : Int) then
    .ok (rk.entries.take (rk.currentIndex - rk.start).toNat)
  else .error GoPanic.sliceBoundsOutOfRange

/-- The operations of the keeper with the exact buffer length on a platform that
allocates every non-negative length. -/
def ops : KeeperOps rangeKeeper (List HistoryEntry) :=
  ⟨InitUnbounded, Commit, Continue, Result, store⟩

/-- The operations of the keeper on a platform with the allocation limit
`makeLimit`. -/
def opsOn (makeLimit : Nat) : KeeperOps rangeKeeper (List HistoryEntry) :=
  ⟨Init makeLimit, Commit, Continue, Result, store⟩

end rangeKeeper

/-! ### The driving protocol -/

/-- Rounds of the producer loop without its exit test: for each entry of the
source, the caller writes it into the slot last returned and calls `Commit`. -/
def rounds {σ ρ : Type} (K : KeeperOps σ ρ) : σ → Ptr → List HistoryEntry → Except GoPanic (σ × Ptr)
  | k, slot, [] => .ok (k, slot)
  | k, slot, e :: rest =>
    match K.store k slot e with
    | .error err => .error err
    | .ok k1 =>
      match K.Commit k1 slot with
      | .error err => .error err
      | .ok (k2, slot2) => rounds K k2 slot2 rest

/-- Modelled from the spec: the producer loop is outside the given sources; section
4.2 of the spec gives it as rounds of write and `Commit` that stop when
`Continue()` is false or the source is exhausted, whichever comes first. -/
def driveLoop {σ ρ : Type} (K : KeeperOps σ ρ) : σ → Ptr → List HistoryEntry → Except GoPanic σ
  | k, _, [] => .ok k
  | k, slot, e :: rest =>
    match K.Continue k with
    | .error err => .error err
    | .ok false => .ok k
    | .ok true =>
      match K.store k slot e with
      | .error err => .error err
      | .ok k1 =>
        match K.Commit k1 slot with
        | .error err => .error err
        | .ok (k2, slot2) => driveLoop K k2 slot2 rest

/-- Modelled from the spec: one retrieval by the protocol of section 4.2, `Init`,
then the producer loop, then `Result` once. -/
def retrieve {σ ρ : Type} (K : KeeperOps σ ρ) (k : σ) (source : List HistoryEntry) :
    Except GoPanic ρ :=
  match K.Init k with
  | .error err => .error err
  | .ok (k0, slot) =>
    match driveLoop K k0 slot source with
    | .error err => .error err
    | .ok k1 => K.Result k1

/-- The protocol with a fixed number of rounds: `Init`, a round for every entry of
`written`, then `Result`. -/
def retrieveAfterRounds {σ ρ : Type} (K : KeeperOps σ ρ) (k : σ) (written : List HistoryEntry) :
    Except GoPanic ρ :=
  match K.Init k with
  | .error err => .error err
  | .ok (k0, slot) =>
    match rounds K k0 slot written with
    | .error err => .error err
    | .ok (k1, _) => K.Result k1

/-- The state after `Init` and a round for every entry of `written`. -/
def stateAfterRounds {σ ρ : Type} (K : KeeperOps σ ρ) (k : σ) (written : List HistoryEntry) :
    Except GoPanic σ :=
  match K.Init k with
  | .error err => .error err
  | .ok (k0, slot) =>
    match rounds K k0 slot written with
    | .error err => .error err
    | .ok (k1, _) => .ok k1

/-! ### Invariants of the keepers under the protocol -/

/-- The state of an `allKeeper` in which the entries of `done` are committed: they
fill the buffer from its start, and the slot handed out is the one after them. -/
def AllInv (done : List HistoryEntry) (ak : allKeeper) (slot : Ptr) : Prop :=
  ak.currentIndex = (done.length : Int) ∧ slot = Ptr.element done.length ∧
    ∃ y tail, ak.entries = done ++ y :: tail

/-- The state of a `rangeKeeper` with limits `s ≤ f` in which the entries of `done`
are committed: the entries from position `s` on fill the buffer from its start, the
rest of the buffer is untouched, and the slot handed out is the entry of `Init`
while no position from `s` on is committed and the buffer slot after the committed
ones afterwards. -/
def RangeInv (s f : Nat) (done : List HistoryEntry) (rk : rangeKeeper) (slot : Ptr) : Prop :=
  rk.start = (s : Int) ∧ rk.finish = (f : Int) ∧ rk.currentIndex = (done.length : Int) ∧
    rk.current = slot ∧
    slot = (if done.length ≤ s then Ptr.object else Ptr.element (done.length - s)) ∧
    rk.entries = done.drop s ++ List.replicate (f + 1 - max s done.length) HistoryEntry.zero

/-- Entries numbered 0 to 9 of the worked examples of the spec. -/
def exampleEntries : List HistoryEntry :=
  (List.range 10).map (fun n => ⟨n, "cmd", false⟩)

/-- The state of a `preciseNumberKeeper` with target `t` in which the entries of
`done` are written and committed: the one slot holds the last of them. -/
def PreciseInv (t : Nat) (done : List HistoryEntry) (pnk : preciseNumberKeeper) (slot : Ptr) :
    Prop :=
  pnk.preciseNumber = t ∧ pnk.base.current = Ptr.object ∧ slot = Ptr.object ∧
    pnk.base.object = done.getLast?.getD HistoryEntry.zero

/-- The state of a `rangeKeeper` with `finish < start` in which the entries of `done`
are committed: the buffer is as `Init` made it and the slot is the entry of `Init`. -/
def RangeIdleInv (start finish : Int) (buffer : List HistoryEntry) (done : List HistoryEntry)
    (rk : rangeKeeper) (slot : Ptr) : Prop :=
  rk.start = start ∧ rk.finish = finish ∧ rk.currentIndex = (done.length : Int) ∧
    rk.current = slot ∧ slot = Ptr.object ∧ rk.entries = buffer

/-! ### The capacity override and the factory -/

/-- The initial value of the package variable `historyEventsCapacity`. -/
def defaultHistoryEventsCapacity : Int := 5000

/-- The function `init` of the package, as the value of `historyEventsCapacity`
after it.  `Getenv` is `os.Getenv` (the empty string for a variable that is not
set) and `Atoi` is `strconv.Atoi` (`none` when it returns an error). -/
def init (Getenv : String → String) (Atoi : String → Option Int)
    (historyEventsCapacity : Int) : Int :=
  let histFileSize := Getenv "HISTFILESIZE"
  if histFileSize ≠ "" then
    match Atoi histFileSize with
    | some converted => if converted > 0 then converted else historyEventsCapacity
    | none => historyEventsCapacity
  else historyEventsCapacity

/-- The value of `historyEventsCapacity` that `allKeeper.Init` reads. -/
def historyEventsCapacity (Getenv : String → String) (Atoi : String → Option Int) : Int :=
  init Getenv Atoi defaultHistoryEventsCapacity

/-- The type `GetCommandsMode` and its four constants are declared outside the given
sources: a mode is kept as a number and the constants are the fields of `Modes`. -/
structure Modes where
  GetCommandsAll : Nat
  GetCommandsRange : Nat
  GetCommandsSingle : Nat
  GetCommandsPrecise : Nat
  deriving DecidableEq, Repr

/-- The four constants are different numbers, as the cases of one `switch` are. -/
def Modes.Distinct (m : Modes) : Prop :=
  m.GetCommandsAll ≠ m.GetCommandsRange ∧ m.GetCommandsAll ≠ m.GetCommandsSingle ∧
    m.GetCommandsAll ≠ m.GetCommandsPrecise ∧ m.GetCommandsRange ≠ m.GetCommandsSingle ∧
    m.GetCommandsRange ≠ m.GetCommandsPrecise ∧ m.GetCommandsSingle ≠ m.GetCommandsPrecise

instance (m : Modes) : Decidable m.Distinct := by
  unfold Modes.Distinct; infer_instance

/-- The mode is one of the four constants. -/
def Modes.Known (m : Modes) (mode : Nat) : Prop :=
  mode = m.GetCommandsAll ∨ mode = m.GetCommandsRange ∨ mode = m.GetCommandsSingle ∨
    mode = m.GetCommandsPrecise

instance (m : Modes) (mode : Nat) : Decidable (m.Known mode) := by
  unfold Modes.Known; infer_instance

/-- A value of the interface `Keeper`: one of the four implementations. -/
inductive Keeper where
  | all (ak : allKeeper)
  | range (rk : rangeKeeper)
  | single (sk : singleKeeper)
  | precise (pnk : preciseNumberKeeper)
  deriving DecidableEq, Repr

/-- The function `getKeeper`.  An index into `varargs` past its end fails; after the
`switch`, `utils.Logger.Panic` does not return. -/
def getKeeper (m : Modes) (mode : Nat) (varargs : List Int) : Except GoPanic Keeper :=
  if mode = m.GetCommandsAll then .ok (Keeper.all allKeeper.new)
  else if mode = m.GetCommandsRange then
    match varargs with
    | start :: finish :: _ => .ok (Keeper.range (rangeKeeper.new.SetLimits start finish))
    | _ => .error GoPanic.indexOutOfRange
  else if mode = m.GetCommandsSingle then .ok (Keeper.single singleKeeper.new)
  else if mode = m.GetCommandsPrecise then
    match varargs with
    | number :: _ => .ok (Keeper.precise (preciseNumberKeeper.new.SetNumber number))
    | [] => .error GoPanic.indexOutOfRange
  else .error GoPanic.unknownGetCommandsMode

/-- One assignment of numbers to the four modes. -/
def exampleModes : Modes := ⟨0, 1, 2, 3⟩

/-! ### Reachable states -/

/-- The states a keeper built as `k` goes through under the protocol: the state
after `Init`, and the state after a round of write and `Commit` that starts in a
reachable state in which `Continue()` is true.  With a state come the slot handed
out for the next write and the entries committed so far. -/
inductive Reachable {σ ρ : Type} (K : KeeperOps σ ρ) (k : σ) :
    σ → Ptr → List HistoryEntry → Prop where
  | init {k0 : σ} {slot : Ptr} : K.Init k = .ok (k0, slot) → Reachable K k k0 slot []
  | round {k0 k1 k2 : σ} {slot slot2 : Ptr} {done : List HistoryEntry} {e : HistoryEntry} :
      Reachable K k k0 slot done → K.Continue k0 = .ok true → K.store k0 slot e = .ok k1 →
      K.Commit k1 slot = .ok (k2, slot2) → Reachable K k k2 slot2 (done ++ [e])

/-- The slot is not one of the first `n` buffer slots, the ones `Result()` returns. -/
def Ptr.OutsideResult (p : Ptr) (n : Nat) : Prop :=
  match p with
  | Ptr.element i => n ≤ i
  | _ => True

/-- The state of the `Range(1, 3)` keeper after `Init` and two rounds, with the
entries numbered 0 and 1: the second one is in the buffer. -/
def exampleRangeState : rangeKeeper :=
  ⟨Ptr.element 1, 2, 1, 3, [⟨1, "cmd", false⟩, HistoryEntry.zero, HistoryEntry.zero],
    ⟨1, "cmd", false⟩, [Ptr.object, Ptr.object]⟩

/-- The state of the `allKeeper` with capacity 2 after `Init` and one round. -/
def exampleAllState : allKeeper :=
  ⟨1, [⟨0, "cmd", false⟩, HistoryEntry.zero], [Ptr.element 0]⟩

end historyentries

/-! ## `app/history_entries/history_processor.go` -/

namespace history_entries

open commands historyentries

/-- A Go map from strings to booleans. -/
abbrev StringMap := String → Option Bool

/-- The assignment `entries[key] = value`. -/
def StringMap.insert (entries : StringMap) (key : String) (value : Bool) : StringMap :=
  fun k => if k = key then some value else entries k

/-- What the goroutine of `processHistories` has done when it ends: the entries sent
on `consumeChan` as it leaves them, the number of them it received, the values it
sent on `resultChan` and the number of warnings it logged. -/
structure CorrelatorRun where
  entries : List HistoryEntry
  received : Nat
  resultChan : List Bool
  warnings : Nat
  deriving DecidableEq, Repr

/-- The goroutine of `processHistories`.  `fetched` is the result of
`env.GetTraceFilenames()` (`none` when it returns an error), `GetTraceName` is the
method of that name of `HistoryEntry`, and `sent` are the entries the producer sends
on `consumeChan` before it closes the channel, each entry a different object. -/
def processHistories (fetched : Option (List FileInfo)) (GetTraceName : HistoryEntry → String)
    (sent : List HistoryEntry) : CorrelatorRun :=
  let entries : StringMap := fun _ => none
  match fetched with
  | none => ⟨sent, 0, [true], 1⟩
  | some files =>
    let entries := files.foldl (fun acc file => acc.insert file.name true) entries
    let processed := sent.map (fun entry =>
      if (entries (GetTraceName entry)).isSome then { entry with hasHistory := true } else entry)
    ⟨processed, sent.length, [true], 0⟩

/-- A directory snapshot with the one file `abc`. -/
def exampleSnapshot : List FileInfo := [⟨"abc", 100⟩]

/-- Two entries whose payload is their derived trace name, `abc` and `xyz`. -/
def exampleSent : List HistoryEntry := [⟨1, "abc", false⟩, ⟨2, "xyz", false⟩]

end history_entries

/-! ## Theorems about `app/commands/gc.go` -/

namespace commands

/-- The loop of `sort.Search` ends before its fuel does: any two amounts of fuel of
at least `j - i` give the same index. -/
theorem searchLoop_fuel (f : Nat → Bool) :
    ∀ fuel fuel2 i j, j - i ≤ fuel → j - i ≤ fuel2 →
      searchLoop f fuel i j = searchLoop f fuel2 i j := by
  intro fuel
  induction fuel with
  | zero =>
    intro fuel2 i j h1 _
    have hij : ¬ (i < j) := by omega
    cases fuel2 with
    | zero => rfl
    | succ m => simp only [searchLoop, hij, if_false]
  | succ fuel ih =>
    intro fuel2 i j h1 h2
    by_cases hij : i < j
    · cases fuel2 with
      | zero => omega
      | succ m =>
        simp only [searchLoop, hij, if_true]
        cases f ((i + j) / 2) with
        | false =>
          simp only [Bool.not_false, if_true]
          exact ih m _ _ (by omega) (by omega)
        | true =>
          simp only [Bool.not_true, Bool.false_eq_true, if_false]
          exact ih m _ _ (by omega) (by omega)
    · cases fuel2 with
      | zero => simp only [searchLoop, hij, if_false]
      | succ m => simp only [searchLoop, hij, if_false]

theorem searchLoop_spec (f : Nat → Bool) (n : Nat)
    (hmono : ∀ a b, a ≤ b → b < n → f a = true → f b = true) :
    ∀ fuel i j, i ≤ j → j ≤ n → j - i ≤ fuel →
      (∀ k, k < i → f k = false) → (∀ k, j ≤ k → k < n → f k = true) →
      (∀ k, k < searchLoop f fuel i j → f k = false) ∧
      (∀ k, searchLoop f fuel i j ≤ k → k < n → f k = true) ∧
      searchLoop f fuel i j ≤ n := by
  intro fuel
  induction fuel with
  | zero =>
    intro i j hij hjn hfuel hlo hhi
    have : i = j := by omega
    subst this
    exact ⟨hlo, hhi, hjn⟩
  | succ fuel ih =>
    intro i j hij hjn hfuel hlo hhi
    unfold searchLoop
    by_cases hlt : i < j
    · simp only [hlt, if_true]
      have h1 : i ≤ (i + j) / 2 := by omega
      have h2 : (i + j) / 2 < j := by omega
      cases hf : f ((i + j) / 2) with
      | false =>
        simp only [Bool.not_false, if_true]
        apply ih ((i + j) / 2 + 1) j (by omega) hjn (by omega) _ hhi
        intro k hk
        cases hfk : f k with
        | false => rfl
        | true =>
          have := hmono k ((i + j) / 2) (by omega) (by omega) hfk
          rw [hf] at this
          exact absurd this (by decide)
      | true =>
        simp only [Bool.not_true, Bool.false_eq_true, if_false]
        apply ih i ((i + j) / 2) h1 (by omega) (by omega) hlo
        intro k hk hkn
        exact hmono _ k hk hkn hf
    · simp only [hlt, if_false]
      have : i = j := by omega
      subst this
      exact ⟨hlo, hhi, hjn⟩

theorem Search_spec (f : Nat → Bool) (n : Nat)
    (hmono : ∀ a b, a ≤ b → b < n → f a = true → f b = true) :
    (∀ k, k < Search n f → f k = false) ∧ (∀ k, Search n f ≤ k → k < n → f k = true) ∧
      Search n f ≤ n := by
  unfold Search
  exact searchLoop_spec f n hmono n 0 n (Nat.zero_le _) (Nat.le_refl _) (by omega)
    (fun k hk => absurd hk (Nat.not_lt_zero _)) (fun k hk hkn => absurd hkn (by omega))

theorem YoungerThan_eq_filter (content : List FileInfo) (timestamp : Int)
    (hsorted : content.Pairwise (fun a b => a.modTime ≤ b.modTime)) :
    fileInfoSorter.YoungerThan ⟨content⟩ timestamp
      = content.filter (fun r => decide (r.modTime ≤ timestamp)) := by
  unfold fileInfoSorter.YoungerThan
  simp only
  set f : Nat → Bool := fun i => decide ((content.getD i default).modTime > timestamp) with hf
  have hmono : ∀ a b, a ≤ b → b < content.length → f a = true → f b = true := by
    intro a b hab hb hfa
    simp only [hf, decide_eq_true_eq] at hfa ⊢
    have ha : a < content.length := by omega
    rw [List.getD_eq_getElem _ _ ha] at hfa
    rw [List.getD_eq_getElem _ _ hb]
    rcases Nat.lt_or_eq_of_le hab with hlt | heq
    · have := (List.pairwise_iff_getElem.mp hsorted) a b ha hb hlt
      omega
    · subst heq; exact hfa
  obtain ⟨hlo, hhi, hle⟩ := Search_spec f content.length hmono
  set idx := Search content.length f with hidx
  conv_rhs => rw [← List.take_append_drop idx content]
  rw [List.filter_append]
  have h1 : (content.take idx).filter (fun r => decide (r.modTime ≤ timestamp)) = content.take idx := by
    rw [List.filter_eq_self]
    intro r hr
    obtain ⟨k, hk, rfl⟩ := List.getElem_of_mem hr
    rw [List.length_take] at hk
    have hk1 : k < idx := by omega
    have hk2 : k < content.length := by omega
    have := hlo k hk1
    simp only [hf, decide_eq_false_iff_not, List.getD_eq_getElem _ _ hk2] at this
    rw [List.getElem_take]
    simp only [decide_eq_true_eq]
    omega
  have h2 : (content.drop idx).filter (fun r => decide (r.modTime ≤ timestamp)) = [] := by
    rw [List.filter_eq_nil_iff]
    intro r hr
    obtain ⟨k, hk, rfl⟩ := List.getElem_of_mem hr
    rw [List.length_drop] at hk
    have hk2 : idx + k < content.length := by omega
    have := hhi (idx + k) (by omega) hk2
    simp only [hf, decide_eq_true_eq, List.getD_eq_getElem _ _ hk2] at this
    rw [List.getElem_drop]
    simp only [decide_eq_true_eq]
    omega
  rw [h1, h2, List.append_nil]

theorem wrapInt64_of_isInt64 (x : Int) (h : IsInt64 x) : wrapInt64 x = x := by
  unfold IsInt64 at h
  unfold wrapInt64
  omega

theorem cutoff_of_isInt64 (now param : Int) (h1 : IsInt64 (secondsInDay * param))
    (h2 : IsInt64 (now - secondsInDay * param)) : cutoff now param = now - param * 86400 := by
  unfold cutoff
  rw [wrapInt64_of_isInt64 _ h1, wrapInt64_of_isInt64 _ h2]
  unfold secondsInDay
  ring

theorem orderedInsert_perm (a : FileInfo) (l : List FileInfo) :
    (orderedInsert a l).Perm (a :: l) := by
  induction l with
  | nil => exact List.Perm.refl _
  | cons b l ih =>
    unfold orderedInsert
    by_cases h : a.modTime < b.modTime
    · simp only [h, if_true]; exact List.Perm.refl _
    · simp only [h, if_false]
      exact (List.Perm.cons b ih).trans (List.Perm.swap a b l)

theorem orderedInsert_sorted (a : FileInfo) (l : List FileInfo)
    (hl : l.Pairwise (fun x y => x.modTime ≤ y.modTime)) :
    (orderedInsert a l).Pairwise (fun x y => x.modTime ≤ y.modTime) := by
  induction l with
  | nil => simp [orderedInsert]
  | cons b l ih =>
    unfold orderedInsert
    rw [List.pairwise_cons] at hl
    by_cases h : a.modTime < b.modTime
    · simp only [h, if_true]
      rw [List.pairwise_cons, List.pairwise_cons]
      refine ⟨?_, hl⟩
      intro y hy
      rcases List.mem_cons.mp hy with rfl | hy
      · omega
      · have := hl.1 y hy; omega
    · simp only [h, if_false]
      rw [List.pairwise_cons]
      refine ⟨?_, ih hl.2⟩
      intro y hy
      rcases List.mem_cons.mp ((orderedInsert_perm a l).subset hy) with rfl | hy
      · omega
      · exact hl.1 y hy

theorem insertionSort_pairwise (l : List FileInfo) :
    (insertionSort l).Pairwise (fun a b => a.modTime ≤ b.modTime) := by
  induction l with
  | nil => exact List.Pairwise.nil
  | cons a l ih => exact orderedInsert_sorted a _ ih

theorem insertionSort_contract : SortContract insertionSort := by
  constructor
  · intro l
    induction l with
    | nil => exact List.Perm.refl _
    | cons a l ih =>
      exact (orderedInsert_perm a _).trans (List.Perm.cons a ih)
  · intro l i j hij hj
    have hi : i < (insertionSort l).length := by omega
    have := (List.pairwise_iff_getElem.mp (insertionSort_pairwise l)) i j hi hj hij
    simp only [fileInfoSorter.Less, List.getD_eq_getElem _ _ hi, List.getD_eq_getElem _ _ hj,
      decide_eq_false_iff_not, not_lt]
    exact this

/-- A sorted result in the sense of `SortContract` is ascending by modification time. -/
theorem SortContract.pairwise {sortSort : List FileInfo → List FileInfo}
    (hs : SortContract sortSort) (l : List FileInfo) :
    (sortSort l).Pairwise (fun a b => a.modTime ≤ b.modTime) := by
  rw [List.pairwise_iff_getElem]
  intro i j hi hj hij
  have := hs.sorted l i j hij hj
  simp only [fileInfoSorter.Less, List.getD_eq_getElem _ _ hi, List.getD_eq_getElem _ _ hj,
    decide_eq_false_iff_not, not_lt] at this
  exact this

/-- C1, the code at the failing input: with the files `a`, `b`, `c` modified at
100, 200, 300 and `GcKeepLatest` with parameter 1, the deletion loop of `GC` runs
over `c` alone, the most recently modified file, and `a` and `b` stay. -/
theorem C1_keepLatest_removes_the_latest :
    GC insertionSort GcKeepLatest 1 300 (some exampleListing) = .ok [⟨"c", 300⟩] := by
  decide

/-- C3, the code at the failing input: with a listing of three files and
`GcKeepLatest` with parameter 3 or 5, the deletion loop of `GC` runs over all
three files. -/
theorem C3_keepLatest_at_least_size_removes_all :
    GC insertionSort GcKeepLatest 3 300 (some exampleListing) = .ok exampleListing ∧
    GC insertionSort GcKeepLatest 5 300 (some exampleListing) = .ok exampleListing := by
  decide

/-- C2 as stated fails: with files modified at 100, 200, 300, `now = 300` and
`GcOlderThan` with 0 days the cutoff is 300, and the file `c`, modified exactly
at the cutoff, is in the list `GC` removes. -/
theorem C2_counterexample :
    cutoff 300 0 = 300 ∧
    GC insertionSort GcOlderThan 0 300 (some exampleListing)
      = .ok [⟨"a", 100⟩, ⟨"b", 200⟩, ⟨"c", 300⟩] := by
  decide

/-- C2 as amended: for every sort meeting the contract of `sort.Sort`, every
listing, every `now` and every number of days, `GC` with `GcOlderThan` completes
and removes exactly the records of the listing whose modification time is at most
the cutoff; a record modified exactly at the cutoff is removed, and exactly the
records modified strictly after it are retained. -/
theorem C2_olderThan_removes_up_to_cutoff (sortSort : List FileInfo → List FileInfo)
    (hs : SortContract sortSort) (listing : List FileInfo) (now days : Int) :
    ∃ sel, GC sortSort GcOlderThan days now (some listing) = .ok sel ∧
      sel.Perm (listing.filter (fun r => decide (r.modTime ≤ cutoff now days))) ∧
      (∀ r, r ∈ listing → r.modTime = cutoff now days → r ∈ sel) ∧
      (∀ r, r ∈ listing → (r ∉ sel ↔ cutoff now days < r.modTime)) := by
  refine ⟨fileInfoSorter.YoungerThan ⟨sortSort listing⟩ (cutoff now days), rfl, ?_, ?_, ?_⟩
  · rw [YoungerThan_eq_filter _ _ (hs.pairwise listing)]
    exact (hs.perm listing).filter _
  · intro r hr heq
    rw [YoungerThan_eq_filter _ _ (hs.pairwise listing), List.mem_filter]
    exact ⟨(hs.perm listing).mem_iff.mpr hr, by simp [heq]⟩
  · intro r hr
    rw [YoungerThan_eq_filter _ _ (hs.pairwise listing), List.mem_filter]
    have := (hs.perm listing).mem_iff.mpr hr
    simp only [this, true_and, decide_eq_true_eq, not_le]

theorem C2_olderThan_removes_up_to_cutoff_witness :
    ∃ sel, GC insertionSort GcOlderThan 0 300 (some exampleListing) = .ok sel ∧
      sel.Perm (exampleListing.filter (fun r => decide (r.modTime ≤ cutoff 300 0))) ∧
      (∀ r, r ∈ exampleListing → r.modTime = cutoff 300 0 → r ∈ sel) ∧
      (∀ r, r ∈ exampleListing → (r ∉ sel ↔ cutoff 300 0 < r.modTime)) :=
  C2_olderThan_removes_up_to_cutoff insertionSort insertionSort_contract exampleListing 300 0

/-- C4 as stated fails: with `now = 1793786306` and 213503982334602 days the product
`86400 * days` leaves `int64` and wraps to 61184, the cutoff `GC` computes is
1793725122, and `GC` removes the file modified at 1793725122, which is modified
after the exact difference `now - days * 86400`. -/
theorem C4_counterexample :
    GC insertionSort GcOlderThan 213503982334602 1793786306 (some [⟨"edge", 1793725122⟩])
      = .ok [⟨"edge", 1793725122⟩] ∧
    (1793786306 : Int) - 213503982334602 * 86400 < 1793725122 := by
  decide

/-- C4 as amended: for every sort meeting the contract of `sort.Sort`, every listing
in any input order, every `now` and every number of days, `GC` with `GcOlderThan`
removes the list that `YoungerThan` returns on the sorted listing; every record of
that list has a modification time at most the cutoff, and no record of the listing
modified strictly after the cutoff is in it.  The cutoff is `now - 86400 * days`
computed in wrapping `int64` arithmetic, which is the exact difference whenever the
product and the difference fit `int64`. -/
theorem C4_olderThan_never_removes_newer (sortSort : List FileInfo → List FileInfo)
    (hs : SortContract sortSort) (listing : List FileInfo) (now days : Int) :
    GC sortSort GcOlderThan days now (some listing)
        = .ok (fileInfoSorter.YoungerThan ⟨sortSort listing⟩ (cutoff now days)) ∧
    (∀ r ∈ fileInfoSorter.YoungerThan ⟨sortSort listing⟩ (cutoff now days),
        r.modTime ≤ cutoff now days) ∧
    (∀ r ∈ listing, cutoff now days < r.modTime →
        r ∉ fileInfoSorter.YoungerThan ⟨sortSort listing⟩ (cutoff now days)) ∧
    cutoff now days = wrapInt64 (now - wrapInt64 (86400 * days)) ∧
    (IsInt64 (86400 * days) → IsInt64 (now - 86400 * days) →
        cutoff now days = now - days * 86400) := by
  have hle : ∀ r ∈ fileInfoSorter.YoungerThan ⟨sortSort listing⟩ (cutoff now days),
      r.modTime ≤ cutoff now days := by
    intro r hr
    rw [YoungerThan_eq_filter _ _ (hs.pairwise listing), List.mem_filter] at hr
    simpa using hr.2
  refine ⟨rfl, hle, ?_, rfl, ?_⟩
  · intro r _ hgt hmem
    have := hle r hmem
    omega
  · intro h1 h2
    exact cutoff_of_isInt64 now days h1 h2

theorem C4_olderThan_never_removes_newer_witness :
    GC insertionSort GcOlderThan 1 86600 (some exampleListing)
        = .ok (fileInfoSorter.YoungerThan ⟨insertionSort exampleListing⟩ (cutoff 86600 1)) ∧
    (∀ r ∈ fileInfoSorter.YoungerThan ⟨insertionSort exampleListing⟩ (cutoff 86600 1),
        r.modTime ≤ cutoff 86600 1) ∧
    (∀ r ∈ exampleListing, cutoff 86600 1 < r.modTime →
        r ∉ fileInfoSorter.YoungerThan ⟨insertionSort exampleListing⟩ (cutoff 86600 1)) ∧
    cutoff 86600 1 = wrapInt64 (86600 - wrapInt64 (86400 * 1)) ∧
    (IsInt64 (86400 * 1) → IsInt64 (86600 - 86400 * 1) →
        cutoff 86600 1 = 86600 - 1 * 86400) :=
  C4_olderThan_never_removes_newer insertionSort insertionSort_contract exampleListing 86600 1

/-- C10 as stated fails: with a listing of three files, `GcKeepLatest` with
parameter -1 makes `GC` fail in `Tail` with a slice bound out of range. -/
theorem C10_counterexample :
    GC insertionSort GcKeepLatest (-1) 300 (some exampleListing)
      = .error GoPanic.sliceBoundsOutOfRange := by
  decide

/-- C10 as amended: for every sort meeting the contract of `sort.Sort`, every
listing and every negative `int` parameter, `GC` with `GcKeepLatest` fails in
`Tail` with a slice bound out of range, after the sort and before the deletion
loop, so nothing is logged and no record is removed. -/
theorem C10_keepLatest_negative_fails (sortSort : List FileInfo → List FileInfo)
    (hs : SortContract sortSort) (GetTraceFileName : String → String)
    (listing : List FileInfo) (n now : Int)
    (hneg : n < 0) (hn : IsInt64 n) (hlen : (listing.length : Int) < 9223372036854775808) :
    GC sortSort GcKeepLatest n now (some listing) = .error GoPanic.sliceBoundsOutOfRange ∧
    GCRun sortSort GetTraceFileName GcKeepLatest n now (some listing)
      = ⟨[], [], some GoPanic.sliceBoundsOutOfRange⟩ := by
  have hl : (sortSort listing).length = listing.length := (hs.perm listing).length_eq
  unfold IsInt64 at hn
  have hgc : GC sortSort GcKeepLatest n now (some listing)
      = .error GoPanic.sliceBoundsOutOfRange := by
    simp only [GC, fileInfoSorter.Tail, if_true, hl]
    have h1 : ¬ (n ≥ (listing.length : Int)) := by omega
    simp only [h1, if_false]
    have h2 : ¬ (0 ≤ wrapInt64 ((listing.length : Int) - n) ∧
        wrapInt64 ((listing.length : Int) - n) ≤ (listing.length : Int)) := by
      unfold wrapInt64; omega
    simp only [h2, if_false]
  refine ⟨hgc, ?_⟩
  simp only [GCRun, hgc]

theorem C10_keepLatest_negative_fails_witness :
    GC insertionSort GcKeepLatest (-2) 300 (some exampleListing)
      = .error GoPanic.sliceBoundsOutOfRange ∧
    GCRun insertionSort (fun name => name) GcKeepLatest (-2) 300 (some exampleListing)
      = ⟨[], [], some GoPanic.sliceBoundsOutOfRange⟩ :=
  C10_keepLatest_negative_fails insertionSort insertionSort_contract (fun name => name)
    exampleListing (-2) 300 (by decide) (by decide) (by decide)

end commands

/-! ## Theorems about `app/historyentries/keeper.go` -/

namespace historyentries

theorem rounds_cons {σ ρ : Type} (K : KeeperOps σ ρ) {k k1 k2 : σ} {slot slot2 : Ptr}
    {e : HistoryEntry} (rest : List HistoryEntry)
    (hs : K.store k slot e = .ok k1) (hc : K.Commit k1 slot = .ok (k2, slot2)) :
    rounds K k slot (e :: rest) = rounds K k2 slot2 rest := by
  simp only [rounds, hs, hc]

theorem driveLoop_cons {σ ρ : Type} (K : KeeperOps σ ρ) {k k1 k2 : σ} {slot slot2 : Ptr}
    {e : HistoryEntry} (rest : List HistoryEntry) (hgo : K.Continue k = .ok true)
    (hs : K.store k slot e = .ok k1) (hc : K.Commit k1 slot = .ok (k2, slot2)) :
    driveLoop K k slot (e :: rest) = driveLoop K k2 slot2 rest := by
  simp only [driveLoop, hgo, hs, hc]

theorem driveLoop_stop {σ ρ : Type} (K : KeeperOps σ ρ) {k : σ} (slot : Ptr)
    (ws : List HistoryEntry) (hstop : K.Continue k = .ok false) :
    driveLoop K k slot ws = .ok k := by
  cases ws with
  | nil => rfl
  | cons e rest => simp only [driveLoop, hstop]

/-- Rounds keep an invariant that every single round keeps while fewer than `N`
entries are committed. -/
theorem rounds_invariant {σ ρ : Type} (K : KeeperOps σ ρ)
    (Inv : List HistoryEntry → σ → Ptr → Prop) (N : Nat)
    (hstep : ∀ done k slot e, Inv done k slot → done.length < N →
      ∃ k1 k2 slot2, K.store k slot e = .ok k1 ∧ K.Commit k1 slot = .ok (k2, slot2) ∧
        Inv (done ++ [e]) k2 slot2) :
    ∀ (ws done : List HistoryEntry) (k : σ) (slot : Ptr), Inv done k slot →
      done.length + ws.length ≤ N →
      ∃ k1 slot1, rounds K k slot ws = .ok (k1, slot1) ∧ Inv (done ++ ws) k1 slot1 := by
  intro ws
  induction ws with
  | nil =>
    intro done k slot hinv _
    exact ⟨k, slot, rfl, by simpa using hinv⟩
  | cons e rest ih =>
    intro done k slot hinv hlen
    simp only [List.length_cons] at hlen
    obtain ⟨k1, k2, slot2, hs, hc, hinv2⟩ := hstep done k slot e hinv (by omega)
    obtain ⟨k3, slot3, hr, hinv3⟩ := ih (done ++ [e]) k2 slot2 hinv2
      (by simp only [List.length_append, List.length_cons, List.length_nil]; omega)
    refine ⟨k3, slot3, ?_, ?_⟩
    · rw [rounds_cons K rest hs hc, hr]
    · simpa using hinv3

/-- The producer loop keeps such an invariant and stops after `N` commits when
`Continue` is the test that fewer than `N` entries are committed. -/
theorem driveLoop_invariant {σ ρ : Type} (K : KeeperOps σ ρ)
    (Inv : List HistoryEntry → σ → Ptr → Prop) (N : Nat)
    (hstep : ∀ done k slot e, Inv done k slot → done.length < N →
      ∃ k1 k2 slot2, K.store k slot e = .ok k1 ∧ K.Commit k1 slot = .ok (k2, slot2) ∧
        Inv (done ++ [e]) k2 slot2)
    (hcont : ∀ done k slot, Inv done k slot →
      K.Continue k = .ok (decide (done.length < N))) :
    ∀ (ws done : List HistoryEntry) (k : σ) (slot : Ptr), Inv done k slot →
      ∃ k1 slot1, driveLoop K k slot ws = .ok k1 ∧
        Inv (done ++ ws.take (N - done.length)) k1 slot1 := by
  intro ws
  induction ws with
  | nil =>
    intro done k slot hinv
    exact ⟨k, slot, rfl, by simpa using hinv⟩
  | cons e rest ih =>
    intro done k slot hinv
    by_cases hlt : done.length < N
    · obtain ⟨k1, k2, slot2, hs, hc, hinv2⟩ := hstep done k slot e hinv hlt
      obtain ⟨k3, slot3, hr, hinv3⟩ := ih (done ++ [e]) k2 slot2 hinv2
      have hgo : K.Continue k = .ok true := by rw [hcont done k slot hinv]; simp [hlt]
      refine ⟨k3, slot3, ?_, ?_⟩
      · rw [driveLoop_cons K rest hgo hs hc, hr]
      · have hN : N - done.length = (N - (done ++ [e]).length) + 1 := by
          simp only [List.length_append, List.length_cons, List.length_nil]; omega
        rw [hN, List.take_succ_cons]
        simpa using hinv3
    · have hstop : K.Continue k = .ok false := by rw [hcont done k slot hinv]; simp [hlt]
      refine ⟨k, slot, driveLoop_stop K slot _ hstop, ?_⟩
      have hN : N - done.length = 0 := by omega
      rw [hN]
      simpa using hinv

/-- With a `Continue` that is always true the producer loop is the rounds. -/
theorem driveLoop_of_always_continue {σ ρ : Type} (K : KeeperOps σ ρ)
    (hK : ∀ k, K.Continue k = .ok true) :
    ∀ (ws : List HistoryEntry) (k : σ) (slot : Ptr),
      driveLoop K k slot ws =
        match rounds K k slot ws with
        | .ok (k1, _) => .ok k1
        | .error err => .error err := by
  intro ws
  induction ws with
  | nil => intro k slot; rfl
  | cons e rest ih =>
    intro k slot
    simp only [driveLoop, rounds, hK]
    cases hst : K.store k slot e with
    | error err => rfl
    | ok k1 =>
      simp only
      cases hc : K.Commit k1 slot with
      | error err => rfl
      | ok p =>
        obtain ⟨k2, slot2⟩ := p
        simp only
        exact ih k2 slot2

/-! ### `allKeeper` -/

theorem allKeeper_round (c : Int) (done : List HistoryEntry) (ak : allKeeper) (slot : Ptr)
    (e : HistoryEntry) (hinv : AllInv done ak slot) :
    ∃ k1 k2 slot2, (allKeeper.ops c).store ak slot e = .ok k1 ∧
      (allKeeper.ops c).Commit k1 slot = .ok (k2, slot2) ∧ AllInv (done ++ [e]) k2 slot2 := by
  obtain ⟨ci, ents, fwd⟩ := ak
  obtain ⟨hci, hslot, y, tail, hents⟩ := hinv
  simp only at hci hents
  subst hci hslot hents
  have hset : (done ++ y :: tail).set done.length e = done ++ e :: tail := by simp
  have hlt : done.length < (done ++ y :: tail).length := by simp
  refine ⟨⟨(done.length : Int), done ++ e :: tail, fwd⟩, ?_⟩
  simp only [allKeeper.ops, allKeeper.store, hlt, if_true, hset, true_and]
  cases tail with
  | nil =>
    refine ⟨⟨(done.length : Int) + 1, done ++ [e] ++ [HistoryEntry.zero],
      fwd ++ [Ptr.element done.length]⟩, Ptr.element (done.length + 1), ?_, ?_⟩
    · have h1 : (done.length : Int) + 1 = ((done ++ [e]).length : Int) := by simp
      have h2 : (0 : Int) ≤ (done.length : Int) + 1 ∧
          (done.length : Int) + 1 < ((done ++ [e] ++ [HistoryEntry.zero]).length : Int) := by
        simp; omega
      have h3 : ((done.length : Int) + 1).toNat = done.length + 1 := by omega
      simp only [allKeeper.Commit, h1, if_true]
      rw [← h1]
      simp only [h2, and_self, if_true, h3]
    · exact ⟨by simp, by simp, HistoryEntry.zero, [], rfl⟩
  | cons t tail2 =>
    refine ⟨⟨(done.length : Int) + 1, done ++ e :: t :: tail2,
      fwd ++ [Ptr.element done.length]⟩, Ptr.element (done.length + 1), ?_, ?_⟩
    · have h1 : ¬ ((done.length : Int) + 1 = ((done ++ e :: t :: tail2).length : Int)) := by
        simp; omega
      have h2 : (0 : Int) ≤ (done.length : Int) + 1 ∧
          (done.length : Int) + 1 < ((done ++ e :: t :: tail2).length : Int) := by
        simp; omega
      have h3 : ((done.length : Int) + 1).toNat = done.length + 1 := by omega
      simp only [allKeeper.Commit, h1, if_false, h2, and_self, if_true, h3]
    · exact ⟨by simp, by simp, t, tail2, by simp⟩

theorem allKeeper_init (c : Int) (hc : 1 ≤ c) :
    ∃ ak, (allKeeper.ops c).Init allKeeper.new = .ok (ak, Ptr.element 0) ∧
      AllInv [] ak (Ptr.element 0) := by
  have h1 : ¬ (c < 0) := by omega
  have h2 : 0 < (List.replicate c.toNat HistoryEntry.zero).length := by
    simp only [List.length_replicate]; omega
  refine ⟨⟨0, List.replicate c.toNat HistoryEntry.zero, []⟩, ?_, ?_⟩
  · simp only [allKeeper.ops, allKeeper.InitUnbounded, h1, if_false, h2, if_true, allKeeper.new]
  · refine ⟨rfl, rfl, ?_⟩
    obtain ⟨m, hm⟩ : ∃ m, c.toNat = m + 1 := ⟨c.toNat - 1, by omega⟩
    exact ⟨HistoryEntry.zero, List.replicate m HistoryEntry.zero, by
      simp [hm, List.replicate_succ]⟩

theorem allKeeper_result (done : List HistoryEntry) (ak : allKeeper) (slot : Ptr)
    (hinv : AllInv done ak slot) : allKeeper.Result ak = .ok done := by
  obtain ⟨hci, _, y, tail, hents⟩ := hinv
  have h : (0 : Int) ≤ ak.currentIndex ∧ ak.currentIndex ≤ (ak.entries.length : Int) := by
    rw [hci, hents, List.length_append, List.length_cons]
    push_cast
    omega
  unfold allKeeper.Result
  rw [if_pos h, hci, hents, Int.toNat_ofNat, List.take_left]

/-- C5: for every written sequence (of any length `m`, below, equal to or above
the capacity) and every initial capacity `c` of at least 1, `Init` followed by
one round of write and `Commit` per entry makes `Result()` exactly the written
entries, in commit order; the producer loop of the protocol gives the same. -/
theorem C5_allKeeper_result_is_written (c : Int) (hc : 1 ≤ c) (written : List HistoryEntry) :
    retrieveAfterRounds (allKeeper.ops c) allKeeper.new written = .ok written ∧
    retrieve (allKeeper.ops c) allKeeper.new written = .ok written := by
  obtain ⟨ak, hinit, hinv⟩ := allKeeper_init c hc
  obtain ⟨k1, slot1, hr, hinv1⟩ :=
    rounds_invariant (allKeeper.ops c) AllInv written.length
      (fun done k slot e h _ => allKeeper_round c done k slot e h) written [] ak (Ptr.element 0)
      hinv (by simp)
  have hres : (allKeeper.ops c).Result k1 = .ok written := by
    simpa using allKeeper_result _ k1 slot1 hinv1
  constructor
  · simp only [retrieveAfterRounds, hinit, hr, hres]
  · have hd := driveLoop_of_always_continue (allKeeper.ops c) (fun _ => rfl) written ak
      (Ptr.element 0)
    rw [hr] at hd
    simp only [retrieve, hinit, hd, hres]

theorem C5_allKeeper_result_is_written_witness :
    retrieveAfterRounds (allKeeper.ops 2) allKeeper.new
        [⟨1, "ls", false⟩, ⟨2, "cd", false⟩, ⟨3, "pwd", false⟩]
      = .ok [⟨1, "ls", false⟩, ⟨2, "cd", false⟩, ⟨3, "pwd", false⟩] ∧
    retrieve (allKeeper.ops 2) allKeeper.new
        [⟨1, "ls", false⟩, ⟨2, "cd", false⟩, ⟨3, "pwd", false⟩]
      = .ok [⟨1, "ls", false⟩, ⟨2, "cd", false⟩, ⟨3, "pwd", false⟩] :=
  C5_allKeeper_result_is_written 2 (by decide) _

theorem rangeKeeper_round (s f : Nat) (hsf : s ≤ f) (done : List HistoryEntry)
    (rk : rangeKeeper) (slot : Ptr) (e : HistoryEntry) (hinv : RangeInv s f done rk slot)
    (hlt : done.length < f) :
    ∃ k1 k2 slot2, rangeKeeper.ops.store rk slot e = .ok k1 ∧
      rangeKeeper.ops.Commit k1 slot = .ok (k2, slot2) ∧ RangeInv s f (done ++ [e]) k2 slot2 := by
  obtain ⟨cur, ci, st, fi, ents, obj, fwd⟩ := rk
  obtain ⟨hst, hfi, hci, hcur, hslot, hents⟩ := hinv
  simp only at hst hfi hci hcur hents
  subst hst hfi hci hcur
  rcases Nat.lt_trichotomy done.length s with hlo | heq | hhi
  · -- before the range: the entry of `Init` is overwritten, the buffer is untouched
    have hle : done.length ≤ s := by omega
    rw [if_pos hle] at hslot
    subst hslot
    have hnot : ¬ ((s : Int) ≤ (done.length : Int) ∧ (done.length : Int) ≤ (f : Int)) := by omega
    refine ⟨⟨Ptr.object, done.length, s, f, ents, e, fwd⟩,
      ⟨Ptr.object, (done.length : Int) + 1, s, f, ents, e, fwd ++ [Ptr.object]⟩, Ptr.object,
      rfl, ?_, ?_⟩
    · simp only [rangeKeeper.ops, rangeKeeper.Commit, hnot, if_false]
    · refine ⟨rfl, rfl, by simp, rfl, ?_, ?_⟩
      · have : (done ++ [e]).length ≤ s := by simp; omega
        rw [if_pos this]
      · simp only [hents, List.length_append, List.length_cons, List.length_nil]
        have h1 : List.drop s done = [] := List.drop_eq_nil_of_le hle
        have h2 : List.drop s (done ++ [e]) = [] :=
          List.drop_eq_nil_of_le (by simp; omega)
        rw [h1, h2]
        congr 2
        omega
  · -- the first position of the range: the entry of `Init` is copied into slot 0
    have hle : done.length ≤ s := by omega
    rw [if_pos hle] at hslot
    subst hslot
    have hin : (s : Int) ≤ (done.length : Int) ∧ (done.length : Int) ≤ (f : Int) := by omega
    have hdrop : List.drop s done = [] := List.drop_eq_nil_of_le hle
    obtain ⟨m, hm⟩ : ∃ m, f + 1 - max s done.length = m + 2 :=
      ⟨f + 1 - max s done.length - 2, by omega⟩
    rw [hdrop, hm, List.nil_append, List.replicate_succ] at hents
    subst hents
    have hi : ((done.length : Int) - (s : Int)).toNat = 0 := by omega
    refine ⟨⟨Ptr.object, done.length, s, f, _, e, fwd⟩,
      ⟨Ptr.element 1, (done.length : Int) + 1, s, f,
        e :: List.replicate (m + 1) HistoryEntry.zero, e, fwd ++ [Ptr.object]⟩,
      Ptr.element 1, rfl, ?_, ?_⟩
    · simp only [rangeKeeper.ops, rangeKeeper.Commit, hin, and_self, if_true, rangeKeeper.load, hi,
        List.length_cons, List.length_replicate, List.set_cons_zero]
      simp
    · refine ⟨rfl, rfl, by simp, rfl, ?_, ?_⟩
      · have h1 : ¬ ((done ++ [e]).length ≤ s) := by simp; omega
        have h2 : (done ++ [e]).length - s = 1 := by simp; omega
        rw [if_neg h1, h2]
      · have h2 : List.drop s (done ++ [e]) = [e] := by
          rw [List.drop_append_of_le_length (by omega), hdrop, List.nil_append]
        have h3 : f + 1 - max s (done ++ [e]).length = m + 1 := by
          simp only [List.length_append, List.length_cons, List.length_nil]; omega
        rw [h2, h3]
        rfl
  · -- inside the range: the entry is written in place, the next slot is handed out
    have hle : ¬ (done.length ≤ s) := by omega
    rw [if_neg hle] at hslot
    subst hslot
    have hin : (s : Int) ≤ (done.length : Int) ∧ (done.length : Int) ≤ (f : Int) := by omega
    obtain ⟨m, hm⟩ : ∃ m, f + 1 - max s done.length = m + 2 :=
      ⟨f + 1 - max s done.length - 2, by omega⟩
    have hdl : (List.drop s done).length = done.length - s := List.length_drop s done
    rw [hm, List.replicate_succ] at hents
    subst hents
    have hi : ((done.length : Int) - (s : Int)).toNat = done.length - s := by omega
    have hset : ∀ x : HistoryEntry,
        (List.drop s done ++ x :: List.replicate (m + 1) HistoryEntry.zero).set
          (done.length - s) e
          = List.drop s done ++ e :: List.replicate (m + 1) HistoryEntry.zero := by
      intro x
      rw [← hdl]
      simp
    have hlen : ∀ x : HistoryEntry,
        (List.drop s done ++ x :: List.replicate (m + 1) HistoryEntry.zero).length
          = done.length - s + (m + 2) := by
      intro x
      simp only [List.length_append, List.length_cons, List.length_replicate, hdl]
    have hget : (List.drop s done ++ e :: List.replicate (m + 1) HistoryEntry.zero).get?
        (done.length - s) = some e := by
      rw [List.get?_eq_getElem?, List.getElem?_append_right (by omega)]
      simp [hdl]
    refine ⟨⟨Ptr.element (done.length - s), done.length, s, f,
        List.drop s done ++ e :: List.replicate (m + 1) HistoryEntry.zero, obj, fwd⟩,
      ⟨Ptr.element (done.length - s + 1), (done.length : Int) + 1, s, f,
        List.drop s done ++ e :: List.replicate (m + 1) HistoryEntry.zero, obj,
        fwd ++ [Ptr.element (done.length - s)]⟩,
      Ptr.element (done.length - s + 1), ?_, ?_, ?_⟩
    · have : done.length - s < done.length - s + (m + 2) := by omega
      simp only [rangeKeeper.ops, rangeKeeper.store, hlen, this, if_true, hset]
    · have h1 : done.length - s < done.length - s + (m + 2) := by omega
      have h2 : done.length - s + 1 < done.length - s + (m + 2) := by omega
      simp only [rangeKeeper.ops, rangeKeeper.Commit, hin, and_self, if_true, rangeKeeper.load,
        hget, hi, hlen, h1, hset, h2]
    · refine ⟨rfl, rfl, by simp, rfl, ?_, ?_⟩
      · have h1 : ¬ ((done ++ [e]).length ≤ s) := by simp; omega
        have h2 : (done ++ [e]).length - s = done.length - s + 1 := by simp; omega
        rw [if_neg h1, h2]
      · have h2 : List.drop s (done ++ [e]) = List.drop s done ++ [e] :=
          List.drop_append_of_le_length (by omega)
        have h3 : f + 1 - max s (done ++ [e]).length = m + 1 := by
          simp only [List.length_append, List.length_cons, List.length_nil]; omega
        rw [h2, h3]
        simp

theorem rounds_append {σ ρ : Type} (K : KeeperOps σ ρ) :
    ∀ (xs ys : List HistoryEntry) (k : σ) (slot : Ptr),
      rounds K k slot (xs ++ ys) =
        match rounds K k slot xs with
        | .ok (k1, slot1) => rounds K k1 slot1 ys
        | .error err => .error err := by
  intro xs
  induction xs with
  | nil => intro ys k slot; rfl
  | cons e rest ih =>
    intro ys k slot
    simp only [List.cons_append, rounds]
    cases hst : K.store k slot e with
    | error err => rfl
    | ok k1 =>
      simp only
      cases hc : K.Commit k1 slot with
      | error err => rfl
      | ok p =>
        obtain ⟨k2, slot2⟩ := p
        simp only
        exact ih ys k2 slot2

theorem rangeKeeper_init (s f : Nat) (hsf : s ≤ f) :
    ∃ rk, rangeKeeper.ops.Init (rangeKeeper.new.SetLimits s f) = .ok (rk, Ptr.object) ∧
      RangeInv s f [] rk Ptr.object := by
  have h1 : ¬ ((f : Int) - (s : Int) + 1 < 0) := by omega
  have h2 : ((f : Int) - (s : Int) + 1).toNat = f + 1 - s := by omega
  refine ⟨⟨Ptr.object, 0, s, f, List.replicate (f + 1 - s) HistoryEntry.zero,
    HistoryEntry.zero, []⟩, ?_, ?_⟩
  · simp only [rangeKeeper.ops, rangeKeeper.InitUnbounded, rangeKeeper.SetLimits, rangeKeeper.new, h1,
      if_false, h2]
  · refine ⟨rfl, rfl, rfl, rfl, by simp, ?_⟩
    simp

theorem rangeKeeper_continue (s f : Nat) (done : List HistoryEntry) (rk : rangeKeeper)
    (slot : Ptr) (hinv : RangeInv s f done rk slot) :
    rangeKeeper.ops.Continue rk = .ok (decide (done.length < f)) := by
  obtain ⟨_, hfi, hci, _⟩ := hinv
  simp only [rangeKeeper.ops, rangeKeeper.Continue, hfi, hci, Nat.cast_lt]

theorem rangeKeeper_result (s f : Nat) (done : List HistoryEntry) (rk : rangeKeeper)
    (slot : Ptr) (hinv : RangeInv s f done rk slot) (hs : s ≤ done.length) :
    rangeKeeper.ops.Result rk = .ok (done.drop s) := by
  obtain ⟨hst, _, hci, _, _, hents⟩ := hinv
  have hdl : (List.drop s done).length = done.length - s := List.length_drop s done
  have h : (0 : Int) ≤ rk.currentIndex - rk.start ∧
      rk.currentIndex - rk.start ≤ (rk.entries.length : Int) := by
    rw [hst, hci, hents, List.length_append, hdl]
    push_cast
    omega
  have h2 : (rk.currentIndex - rk.start).toNat = (List.drop s done).length := by
    rw [hst, hci, hdl]; omega
  simp only [rangeKeeper.ops, rangeKeeper.Result]
  rw [if_pos h, h2, hents, List.take_left]

/-- A forced `Commit` at position `finish`: the copy into the last buffer slot is
in range, the address of the slot after it is not. -/
theorem rangeKeeper_round_at_finish (s f : Nat) (hsf : s ≤ f) (done : List HistoryEntry)
    (rk : rangeKeeper) (slot : Ptr) (e : HistoryEntry) (hinv : RangeInv s f done rk slot)
    (hlen : done.length = f) :
    ∃ k1, rangeKeeper.ops.store rk slot e = .ok k1 ∧
      rangeKeeper.ops.Commit k1 slot = .error GoPanic.indexOutOfRange := by
  obtain ⟨cur, ci, st, fi, ents, obj, fwd⟩ := rk
  obtain ⟨hst, hfi, hci, hcur, hslot, hents⟩ := hinv
  simp only at hst hfi hci hcur hents
  subst hst hfi hci hcur
  have hin : (s : Int) ≤ (done.length : Int) ∧ (done.length : Int) ≤ (f : Int) := by omega
  have hdl : (List.drop s done).length = done.length - s := List.length_drop s done
  have hrep : f + 1 - max s done.length = 1 := by omega
  rw [hrep] at hents
  have hi : ((done.length : Int) - (s : Int)).toNat = done.length - s := by omega
  have hlen2 : ∀ x : HistoryEntry, (List.drop s done ++ [x]).length = done.length - s + 1 := by
    intro x; simp only [List.length_append, List.length_cons, List.length_nil, hdl]
  have hset : ∀ x : HistoryEntry,
      (List.drop s done ++ [x]).set (done.length - s) e = List.drop s done ++ [e] := by
    intro x
    rw [← hdl]
    simp
  have h1 : done.length - s < done.length - s + 1 := by omega
  have h2 : ¬ (done.length - s + 1 < done.length - s + 1) := by omega
  by_cases hle : done.length ≤ s
  · rw [if_pos hle] at hslot
    subst hslot hents
    refine ⟨⟨Ptr.object, done.length, s, f, _, e, fwd⟩, rfl, ?_⟩
    simp only [rangeKeeper.ops, rangeKeeper.Commit, hin, and_self, if_true, rangeKeeper.load, hi,
      List.replicate_one, hlen2, h1, hset, h2, if_false]
  · rw [if_neg hle] at hslot
    subst hslot hents
    have hget : (List.drop s done ++ [e]).get? (done.length - s) = some e := by
      rw [List.get?_eq_getElem?, List.getElem?_append_right (by omega)]
      simp [hdl]
    refine ⟨⟨Ptr.element (done.length - s), done.length, s, f, List.drop s done ++ [e], obj,
      fwd⟩, ?_, ?_⟩
    · simp only [rangeKeeper.ops, rangeKeeper.store, List.replicate_one, hlen2, h1, if_true, hset]
    · simp only [rangeKeeper.ops, rangeKeeper.Commit, hin, and_self, if_true, rangeKeeper.load,
        hget, hi, hlen2, h1, hset, h2, if_false]

/-- C6 as stated fails: `Range(2, 5)` driven over the entries 0 to 9 gives the three
entries at positions 2, 3, 4, not four entries. -/
theorem C6_counterexample :
    retrieve rangeKeeper.ops (rangeKeeper.new.SetLimits 2 5) exampleEntries
      = .ok [⟨2, "cmd", false⟩, ⟨3, "cmd", false⟩, ⟨4, "cmd", false⟩] := by
  decide

/-- C6 as amended: for every `0 ≤ start ≤ finish` and every source of more than
`finish` entries driven through the `Range(start, finish)` keeper by the protocol,
`Result()` has exactly `finish - start` entries, the entries committed at the
positions `start, ..., finish - 1`, in that order. -/
theorem C6_range_result (start finish : Int) (h0 : 0 ≤ start) (hsf : start ≤ finish)
    (source : List HistoryEntry) (hlen : finish < (source.length : Int)) :
    retrieve rangeKeeper.ops (rangeKeeper.new.SetLimits start finish) source
        = .ok ((source.take finish.toNat).drop start.toNat) ∧
    (((source.take finish.toNat).drop start.toNat).length : Int) = finish - start := by
  lift start to Nat using h0 with s
  lift finish to Nat using (le_trans (Int.natCast_nonneg s) hsf) with f
  have hsf1 : s ≤ f := by omega
  have hlen1 : f < source.length := by omega
  obtain ⟨rk0, hinit, hinv0⟩ := rangeKeeper_init s f hsf1
  obtain ⟨rk1, slot1, hd, hinv1⟩ :=
    driveLoop_invariant rangeKeeper.ops (RangeInv s f) f
      (fun done k slot e h hl => rangeKeeper_round s f hsf1 done k slot e h hl)
      (fun done k slot h => rangeKeeper_continue s f done k slot h) source [] rk0 Ptr.object hinv0
  simp only [List.nil_append, List.length_nil, Nat.sub_zero] at hinv1
  have hres := rangeKeeper_result s f _ rk1 slot1 hinv1 (by simp; omega)
  constructor
  · simp only [retrieve, hinit, hd, hres, Int.toNat_ofNat]
  · simp only [Int.toNat_ofNat, List.length_drop, List.length_take]
    omega

theorem C6_range_result_witness :
    retrieve rangeKeeper.ops (rangeKeeper.new.SetLimits 2 5) exampleEntries
        = .ok ((exampleEntries.take (5 : Int).toNat).drop (2 : Int).toNat) ∧
    (((exampleEntries.take (5 : Int).toNat).drop (2 : Int).toNat).length : Int) = 5 - 2 :=
  C6_range_result 2 5 (by decide) (by decide) exampleEntries (by decide)

/-- C7 as stated fails: for `Range(2, 5)`, after the commits of the positions 0 to 4
`Continue()` is already false, and a `Commit` of position 5 fails with an index out
of range. -/
theorem C7_counterexample :
    (∃ rk, stateAfterRounds rangeKeeper.ops (rangeKeeper.new.SetLimits 2 5)
        (exampleEntries.take 5) = .ok rk ∧ rangeKeeper.Continue rk = .ok false) ∧
    stateAfterRounds rangeKeeper.ops (rangeKeeper.new.SetLimits 2 5) (exampleEntries.take 6)
      = .error GoPanic.indexOutOfRange := by
  refine ⟨⟨_, rfl, ?_⟩, ?_⟩ <;> decide

/-- C7 as amended: for every `0 ≤ start ≤ finish`, the commits of the positions
`0, ..., finish - 1` complete without failure, `Continue()` is true while fewer than
`finish` entries are committed and becomes false exactly when the entry at position
`finish - 1` has been committed, so the protocol never commits position `finish`; a
`Commit` of position `finish` fails with an index out of range. -/
theorem C7_range_continue (start finish : Int) (h0 : 0 ≤ start) (hsf : start ≤ finish)
    (written : List HistoryEntry) (hlen : (written.length : Int) ≤ finish)
    (upTo : List HistoryEntry) (hupTo : (upTo.length : Int) = finish) (e : HistoryEntry) :
    (∃ rk, stateAfterRounds rangeKeeper.ops (rangeKeeper.new.SetLimits start finish) written
          = .ok rk ∧
        rangeKeeper.Continue rk = .ok (decide ((written.length : Int) < finish))) ∧
    stateAfterRounds rangeKeeper.ops (rangeKeeper.new.SetLimits start finish) (upTo ++ [e])
        = .error GoPanic.indexOutOfRange := by
  lift start to Nat using h0 with s
  lift finish to Nat using (le_trans (Int.natCast_nonneg s) hsf) with f
  have hsf1 : s ≤ f := by omega
  obtain ⟨rk0, hinit, hinv0⟩ := rangeKeeper_init s f hsf1
  have hstep := fun done k slot e h hl => rangeKeeper_round s f hsf1 done k slot e h hl
  constructor
  · obtain ⟨rk1, slot1, hr, hinv1⟩ :=
      rounds_invariant rangeKeeper.ops (RangeInv s f) f hstep written [] rk0 Ptr.object hinv0
        (by simp only [List.length_nil]; omega)
    refine ⟨rk1, ?_, ?_⟩
    · simp only [stateAfterRounds, hinit, hr]
    · have := rangeKeeper_continue s f _ rk1 slot1 hinv1
      simp only [rangeKeeper.ops, List.nil_append] at this
      rw [this]
      simp only [Nat.cast_lt]
  · have hdl : upTo.length = f := by omega
    obtain ⟨rk1, slot1, hr, hinv1⟩ :=
      rounds_invariant rangeKeeper.ops (RangeInv s f) f hstep upTo [] rk0 Ptr.object hinv0
        (by simp only [List.length_nil]; omega)
    simp only [List.nil_append] at hinv1
    obtain ⟨k1, hs1, hc1⟩ := rangeKeeper_round_at_finish s f hsf1 upTo rk1 slot1 e hinv1 hdl
    simp only [stateAfterRounds, hinit, rounds_append, hr, rounds, hs1, hc1]

theorem C7_range_continue_witness :
    (∃ rk, stateAfterRounds rangeKeeper.ops (rangeKeeper.new.SetLimits 2 5)
          (exampleEntries.take 4) = .ok rk ∧
        rangeKeeper.Continue rk = .ok (decide (((exampleEntries.take 4).length : Int) < 5))) ∧
    stateAfterRounds rangeKeeper.ops (rangeKeeper.new.SetLimits 2 5)
        (exampleEntries.take 5 ++ [⟨5, "cmd", false⟩])
        = .error GoPanic.indexOutOfRange :=
  C7_range_continue 2 5 (by decide) (by decide) (exampleEntries.take 4) (by decide)
    (exampleEntries.take 5) (by decide) ⟨5, "cmd", false⟩

theorem preciseNumberKeeper_round (t : Nat) (done : List HistoryEntry)
    (pnk : preciseNumberKeeper) (slot : Ptr) (e : HistoryEntry)
    (hinv : PreciseInv t done pnk slot) :
    ∃ k1 k2 slot2, preciseNumberKeeper.ops.store pnk slot e = .ok k1 ∧
      preciseNumberKeeper.ops.Commit k1 slot = .ok (k2, slot2) ∧
      PreciseInv t (done ++ [e]) k2 slot2 := by
  obtain ⟨⟨cur, obj⟩, pn⟩ := pnk
  obtain ⟨hpn, hcur, hslot, hobj⟩ := hinv
  simp only at hpn hcur hobj
  subst hpn hcur hslot
  refine ⟨⟨⟨Ptr.object, e⟩, pn⟩, ⟨⟨Ptr.object, e⟩, pn⟩, Ptr.object, rfl, rfl, rfl, rfl, rfl, ?_⟩
  simp

theorem preciseNumberKeeper_init (t : Int) :
    ∃ pnk, preciseNumberKeeper.ops.Init (preciseNumberKeeper.new.SetNumber t)
        = .ok (pnk, Ptr.object) ∧
      PreciseInv (t % 18446744073709551616).toNat [] pnk Ptr.object :=
  ⟨⟨⟨Ptr.object, HistoryEntry.zero⟩, (t % 18446744073709551616).toNat⟩, rfl, rfl, rfl, rfl, rfl⟩

theorem preciseNumberKeeper_after_rounds (t : Int) (written : List HistoryEntry) :
    ∃ pnk, stateAfterRounds preciseNumberKeeper.ops (preciseNumberKeeper.new.SetNumber t) written
        = .ok pnk ∧
      pnk.preciseNumber = (t % 18446744073709551616).toNat ∧
      pnk.base.current = Ptr.object ∧
      pnk.base.object = written.getLast?.getD HistoryEntry.zero := by
  obtain ⟨pnk0, hinit, hinv0⟩ := preciseNumberKeeper_init t
  obtain ⟨k1, slot1, hr, hinv1⟩ :=
    rounds_invariant preciseNumberKeeper.ops (PreciseInv (t % 18446744073709551616).toNat)
      written.length (fun done k slot e h _ => preciseNumberKeeper_round _ done k slot e h)
      written [] pnk0 Ptr.object hinv0 (by simp)
  refine ⟨k1, ?_, hinv1.1, hinv1.2.1, ?_⟩
  · simp only [stateAfterRounds, hinit, hr]
  · simpa using hinv1.2.2.2

/-- C8: for every target `t` (an `int`) and every stream that consists of entries
`before` with numbers different from `t` followed by an entry `last` with number
`t`, `Continue()` is true after each entry of `before` is written and committed,
it is false once `last` is written and committed, and `Result()` is then `last`. -/
theorem C8_preciseNumber_stops_at_target (t : Int) (ht : IsInt64 t)
    (before : List HistoryEntry) (last : HistoryEntry)
    (hne : ∀ e ∈ before, (e.number : Int) ≠ t) (hlast : (last.number : Int) = t) :
    (∀ n, n < before.length →
      ∃ pnk, stateAfterRounds preciseNumberKeeper.ops (preciseNumberKeeper.new.SetNumber t)
          (before.take (n + 1)) = .ok pnk ∧
        preciseNumberKeeper.Continue pnk = .ok true) ∧
    (∃ pnk, stateAfterRounds preciseNumberKeeper.ops (preciseNumberKeeper.new.SetNumber t)
          (before ++ [last]) = .ok pnk ∧
        preciseNumberKeeper.Continue pnk = .ok false ∧
        preciseNumberKeeper.Result pnk = .ok last) := by
  have htn : (t % 18446744073709551616).toNat = last.number := by
    unfold IsInt64 at ht
    omega
  constructor
  · intro n hn
    obtain ⟨pnk, hst, hpn, hcur, hobj⟩ := preciseNumberKeeper_after_rounds t (before.take (n + 1))
    refine ⟨pnk, hst, ?_⟩
    have hlen : (before.take (n + 1)).length = n + 1 := by
      rw [List.length_take]; omega
    obtain ⟨e, he, hmem⟩ : ∃ e, (before.take (n + 1)).getLast? = some e ∧ e ∈ before := by
      have hne0 : before.take (n + 1) ≠ [] := by
        intro h0; rw [h0] at hlen; simp at hlen
      refine ⟨(before.take (n + 1)).getLast hne0, List.getLast?_eq_getLast _ hne0, ?_⟩
      exact List.mem_of_mem_take (List.getLast_mem hne0)
    rw [he] at hobj
    simp only [Option.getD_some] at hobj
    have hnum : e.number ≠ last.number := by
      intro h
      apply hne e hmem
      rw [h, hlast]
    simp only [preciseNumberKeeper.Continue, hcur, singleKeeper.load, hobj, hpn, htn]
    simp [hnum]
  · obtain ⟨pnk, hst, hpn, hcur, hobj⟩ := preciseNumberKeeper_after_rounds t (before ++ [last])
    have hl : (before ++ [last]).getLast? = some last := by simp
    rw [hl] at hobj
    simp only [Option.getD_some] at hobj
    refine ⟨pnk, hst, ?_, ?_⟩
    · simp only [preciseNumberKeeper.Continue, hcur, singleKeeper.load, hobj, hpn, htn]
      simp
    · simp only [preciseNumberKeeper.Result, singleKeeper.Result, hcur, singleKeeper.load, hobj]

theorem C8_preciseNumber_stops_at_target_witness :
    (∀ n, n < (exampleEntries.take 7).length →
      ∃ pnk, stateAfterRounds preciseNumberKeeper.ops (preciseNumberKeeper.new.SetNumber 7)
          ((exampleEntries.take 7).take (n + 1)) = .ok pnk ∧
        preciseNumberKeeper.Continue pnk = .ok true) ∧
    (∃ pnk, stateAfterRounds preciseNumberKeeper.ops (preciseNumberKeeper.new.SetNumber 7)
          (exampleEntries.take 7 ++ [⟨7, "cmd", false⟩]) = .ok pnk ∧
        preciseNumberKeeper.Continue pnk = .ok false ∧
        preciseNumberKeeper.Result pnk = .ok ⟨7, "cmd", false⟩) :=
  C8_preciseNumber_stops_at_target 7 (by decide) (exampleEntries.take 7) ⟨7, "cmd", false⟩
    (by decide) (by decide)

/-- Without its two limits `Init` is `InitUnbounded`: the two agree when the length
`finish-start+1` fits `int` and is within the allocation limit. -/
theorem rangeKeeper_Init_eq_InitUnbounded (makeLimit : Nat) (rk : rangeKeeper)
    (h1 : IsInt64 (rk.finish - rk.start + 1))
    (h2 : rk.finish - rk.start + 1 ≤ (makeLimit : Int)) :
    rangeKeeper.Init makeLimit rk = rangeKeeper.InitUnbounded rk := by
  rw [rangeKeeper.Init, rangeKeeper.InitUnbounded, commands.wrapInt64_of_isInt64 _ h1,
    makeSlice]
  by_cases hneg : rk.finish - rk.start + 1 < 0
  · have h3 : rk.finish - rk.start + 1 < 0 ∨
        (makeLimit : Int) < rk.finish - rk.start + 1 := Or.inl hneg
    rw [if_pos h3, if_pos hneg]
  · have h3 : ¬ (rk.finish - rk.start + 1 < 0 ∨
        (makeLimit : Int) < rk.finish - rk.start + 1) := by omega
    rw [if_neg h3, if_neg hneg]

/-- Without the allocation limit `Init` is `InitUnbounded`: the two agree when the
capacity is within the limit. -/
theorem allKeeper_Init_eq_InitUnbounded (makeLimit : Nat) (c : Int) (ak : allKeeper)
    (h : c ≤ (makeLimit : Int)) :
    allKeeper.Init makeLimit c ak = allKeeper.InitUnbounded c ak := by
  rw [allKeeper.Init, allKeeper.InitUnbounded, makeSlice]
  by_cases hneg : c < 0
  · have h3 : c < 0 ∨ (makeLimit : Int) < c := Or.inl hneg
    rw [if_pos h3, if_pos hneg]
  · have h3 : ¬ (c < 0 ∨ (makeLimit : Int) < c) := by omega
    rw [if_neg h3, if_neg hneg]

theorem rangeKeeper_round_idle (start finish : Int) (hlt : finish < start)
    (buffer : List HistoryEntry) (done : List HistoryEntry) (rk : rangeKeeper) (slot : Ptr)
    (e : HistoryEntry) (hinv : RangeIdleInv start finish buffer done rk slot) :
    ∃ k1 k2 slot2, rangeKeeper.store rk slot e = .ok k1 ∧
      rangeKeeper.Commit k1 slot = .ok (k2, slot2) ∧
      RangeIdleInv start finish buffer (done ++ [e]) k2 slot2 := by
  obtain ⟨cur, ci, st, fi, ents, obj, fwd⟩ := rk
  obtain ⟨hst, hfi, hci, hcur, hslot, hents⟩ := hinv
  simp only at hst hfi hci hcur hents
  subst hst hfi hci hcur hslot hents
  have hnot : ¬ (st ≤ (done.length : Int) ∧ (done.length : Int) ≤ fi) := by omega
  refine ⟨⟨Ptr.object, done.length, st, fi, ents, e, fwd⟩,
    ⟨Ptr.object, (done.length : Int) + 1, st, fi, ents, e, fwd ++ [Ptr.object]⟩, Ptr.object,
    rfl, ?_, ?_⟩
  · simp only [rangeKeeper.Commit, hnot, if_false]
  · exact ⟨rfl, rfl, by simp, rfl, rfl, rfl⟩

/-- C9 as stated fails: on a platform that allocates up to 1000 entries, for
`Range(5, 2)` the call of `Init` fails with a negative buffer length; for
`Range(3, 2)` driven over ten entries `Result()` fails with a slice bound out of
range; and for `Range(9223372036854775807, -9223372036854775808)` the length wraps
around to 2, `Init` returns and `Result()` fails with a slice bound out of range. -/
theorem C9_counterexample :
    retrieve (rangeKeeper.opsOn 1000) (rangeKeeper.new.SetLimits 5 2) exampleEntries
      = .error GoPanic.makeSliceLenOutOfRange ∧
    retrieve (rangeKeeper.opsOn 1000) (rangeKeeper.new.SetLimits 3 2) exampleEntries
      = .error GoPanic.sliceBoundsOutOfRange ∧
    retrieve (rangeKeeper.opsOn 1000)
        (rangeKeeper.new.SetLimits 9223372036854775807 (-9223372036854775808)) exampleEntries
      = .error GoPanic.sliceBoundsOutOfRange := by
  decide

/-- C9 as amended: for all `int` limits `start > finish`, every allocation limit and
every source, a retrieval by the protocol with the `Range(start, finish)` keeper
performs no validation and fails, except for `start = 0`, `finish = -1`, where
`Result()` is the empty sequence: `Init` fails in `make` when the length
`finish-start+1`, computed in wrapping `int` arithmetic, is negative or above the
allocation limit; otherwise (the length is 0, or it wrapped around to a positive
value) no `Commit` touches the buffer and `Result()` fails with a slice bound out of
range.  No retrieval returns a non-empty result. -/
theorem C9_range_start_after_finish (makeLimit : Nat) (start finish : Int)
    (hs : IsInt64 start) (hf : IsInt64 finish) (hlt : finish < start)
    (source : List HistoryEntry) :
    retrieve (rangeKeeper.opsOn makeLimit) (rangeKeeper.new.SetLimits start finish) source =
      if start = 0 ∧ finish = -1 then .ok []
      else if wrapInt64 (finish - start + 1) < 0 ∨
          (makeLimit : Int) < wrapInt64 (finish - start + 1) then
        .error GoPanic.makeSliceLenOutOfRange
      else .error GoPanic.sliceBoundsOutOfRange := by
  unfold IsInt64 at hs hf
  obtain ⟨n, hn⟩ : ∃ n, n = wrapInt64 (finish - start + 1) := ⟨_, rfl⟩
  have hnv : n = (finish - start + 1 + 9223372036854775808) % 18446744073709551616
      - 9223372036854775808 := hn
  rw [← hn]
  by_cases hfail : n < 0 ∨ (makeLimit : Int) < n
  · have hne : ¬ (start = 0 ∧ finish = -1) := by omega
    rw [if_neg hne, if_pos hfail]
    simp only [retrieve, rangeKeeper.opsOn, rangeKeeper.Init, rangeKeeper.SetLimits,
      rangeKeeper.new, makeSlice, ← hn, hfail, if_true]
  · have hinit : (rangeKeeper.opsOn makeLimit).Init (rangeKeeper.new.SetLimits start finish)
        = .ok (⟨Ptr.object, 0, start, finish, List.replicate n.toNat HistoryEntry.zero,
            HistoryEntry.zero, []⟩, Ptr.object) := by
      simp only [rangeKeeper.opsOn, rangeKeeper.Init, rangeKeeper.SetLimits, rangeKeeper.new,
        makeSlice, ← hn, hfail, if_false]
    have hinv0 : RangeIdleInv start finish (List.replicate n.toNat HistoryEntry.zero) []
        ⟨Ptr.object, 0, start, finish, List.replicate n.toNat HistoryEntry.zero,
          HistoryEntry.zero, []⟩ Ptr.object :=
      ⟨rfl, rfl, rfl, rfl, rfl, rfl⟩
    obtain ⟨rk1, slot1, hd, hinv1⟩ :=
      driveLoop_invariant (rangeKeeper.opsOn makeLimit)
        (RangeIdleInv start finish (List.replicate n.toNat HistoryEntry.zero)) finish.toNat
        (fun done k slot e h _ => rangeKeeper_round_idle start finish hlt _ done k slot e h)
        (fun done k slot h => by
          obtain ⟨_, hfi, hci, _⟩ := h
          simp only [rangeKeeper.opsOn, rangeKeeper.Continue, hfi, hci]
          congr 1
          apply decide_eq_decide.mpr
          omega)
        source [] _ Ptr.object hinv0
    obtain ⟨hst, hfi, hci, _, _, hents⟩ := hinv1
    simp only [List.nil_append, List.length_nil, Nat.sub_zero, List.length_take] at hci
    have hres : (rangeKeeper.opsOn makeLimit).Result rk1 =
        if start = 0 ∧ finish = -1 then .ok []
        else .error GoPanic.sliceBoundsOutOfRange := by
      simp only [rangeKeeper.opsOn, rangeKeeper.Result, hst, hci, hents, List.length_replicate]
      by_cases h0 : start = 0 ∧ finish = -1
      · have h3 : (0 : Int) ≤ ((min finish.toNat source.length : Nat) : Int) - start ∧
            ((min finish.toNat source.length : Nat) : Int) - start ≤ ((n.toNat : Nat) : Int) := by
          omega
        have h4 : (((min finish.toNat source.length : Nat) : Int) - start).toNat = 0 := by
          omega
        rw [if_pos h3, if_pos h0, h4, List.take_zero]
      · have h3 : ¬ ((0 : Int) ≤ ((min finish.toNat source.length : Nat) : Int) - start ∧
            ((min finish.toNat source.length : Nat) : Int) - start ≤ ((n.toNat : Nat) : Int)) := by
          omega
        rw [if_neg h3, if_neg h0]
    simp only [retrieve, hinit, hd, hres, hfail, if_false]

theorem C9_range_start_after_finish_witness :
    retrieve (rangeKeeper.opsOn 1000)
        (rangeKeeper.new.SetLimits 9223372036854775807 (-9223372036854775808)) exampleEntries =
      if (9223372036854775807 : Int) = 0 ∧ (-9223372036854775808 : Int) = -1 then .ok []
      else if wrapInt64 (-9223372036854775808 - 9223372036854775807 + 1) < 0 ∨
          ((1000 : Nat) : Int) < wrapInt64 (-9223372036854775808 - 9223372036854775807 + 1) then
        .error GoPanic.makeSliceLenOutOfRange
      else .error GoPanic.sliceBoundsOutOfRange :=
  C9_range_start_after_finish 1000 9223372036854775807 (-9223372036854775808) (by decide)
    (by decide) (by decide) exampleEntries

end historyentries

/-! ## Further theorems about `app/commands/gc.go` -/

namespace commands

/-- C12: when `env.GetTraceFilenames()` returns an error, `GC` ends with the panic
`Cannot fetch the list of trace filenames` for every sort, policy, parameter and
time, no `Remove file` event is logged and `os.Remove` is not called. -/
theorem C12_fetch_failure_aborts (sortSort : List FileInfo → List FileInfo)
    (GetTraceFileName : String → String) (gcType : GcType) (param now : Int) :
    GC sortSort gcType param now none = .error GoPanic.cannotFetchTraceFilenames ∧
    GCRun sortSort GetTraceFileName gcType param now none
      = ⟨[], [], some GoPanic.cannotFetchTraceFilenames⟩ :=
  ⟨rfl, rfl⟩

/-- C18: for every listing that is ascending by modification time and every cutoff,
`YoungerThan` returns the slice before the index `i` that `sort.Search` finds; `i`
is at most the length, every record before `i` is modified at or before the cutoff
and every record from `i` on is modified after it, so `i` is the smallest index of
a record modified after the cutoff, or the length when there is none; the slice
holds exactly the records modified at or before the cutoff. -/
theorem C18_youngerThan_is_the_partition (content : List FileInfo) (timestamp : Int)
    (hsorted : content.Pairwise (fun a b => a.modTime ≤ b.modTime)) :
    ∃ i, i ≤ content.length ∧
      fileInfoSorter.YoungerThan ⟨content⟩ timestamp = content.take i ∧
      (∀ k (hk : k < content.length), k < i → content[k].modTime ≤ timestamp) ∧
      (∀ k (hk : k < content.length), i ≤ k → timestamp < content[k].modTime) ∧
      fileInfoSorter.YoungerThan ⟨content⟩ timestamp
        = content.filter (fun r => decide (r.modTime ≤ timestamp)) := by
  have hmono : ∀ a b, a ≤ b → b < content.length →
      (fun i => decide ((content.getD i default).modTime > timestamp)) a = true →
      (fun i => decide ((content.getD i default).modTime > timestamp)) b = true := by
    intro a b hab hb hfa
    simp only [decide_eq_true_eq] at hfa ⊢
    have ha : a < content.length := by omega
    rw [List.getD_eq_getElem _ _ ha] at hfa
    rw [List.getD_eq_getElem _ _ hb]
    rcases Nat.lt_or_eq_of_le hab with hlt | heq
    · have := (List.pairwise_iff_getElem.mp hsorted) a b ha hb hlt
      omega
    · subst heq; exact hfa
  obtain ⟨hlo, hhi, hle⟩ := Search_spec _ content.length hmono
  refine ⟨Search content.length
    (fun i => decide ((content.getD i default).modTime > timestamp)), hle, rfl, ?_, ?_,
    YoungerThan_eq_filter content timestamp hsorted⟩
  · intro k hk hki
    have := hlo k hki
    simp only [decide_eq_false_iff_not, List.getD_eq_getElem _ _ hk] at this
    omega
  · intro k hk hik
    have := hhi k hik hk
    simp only [decide_eq_true_eq, List.getD_eq_getElem _ _ hk] at this
    omega

theorem C18_youngerThan_is_the_partition_witness :
    ∃ i, i ≤ exampleListing.length ∧
      fileInfoSorter.YoungerThan ⟨exampleListing⟩ 200 = exampleListing.take i ∧
      (∀ k (hk : k < exampleListing.length), k < i → exampleListing[k].modTime ≤ 200) ∧
      (∀ k (hk : k < exampleListing.length), i ≤ k → 200 < exampleListing[k].modTime) ∧
      fileInfoSorter.YoungerThan ⟨exampleListing⟩ 200
        = exampleListing.filter (fun r => decide (r.modTime ≤ 200)) :=
  C18_youngerThan_is_the_partition exampleListing 200 (by decide)

/-- A second run of `GC` with a policy other than `GcKeepLatest` and `GcOlderThan`
finds nothing to remove. -/
theorem GC_all_idempotent (sortSort : List FileInfo → List FileInfo)
    (hs : SortContract sortSort) (gcType : GcType) (h1 : gcType ≠ GcKeepLatest)
    (h2 : gcType ≠ GcOlderThan) (listing : List FileInfo) (param now : Int) :
    ∃ sel, GC sortSort gcType param now (some listing) = .ok sel ∧
      GC sortSort gcType param now (some (listingAfter listing sel)) = .ok [] := by
  refine ⟨sortSort listing, by simp only [GC, h1, h2, if_false], ?_⟩
  have hempty : listingAfter listing (sortSort listing) = [] := by
    unfold listingAfter
    rw [List.filter_eq_nil_iff]
    intro r hr
    simp only [decide_eq_true_eq, not_not]
    exact (hs.perm listing).mem_iff.mpr hr
  have hnil : sortSort [] = [] := List.Perm.eq_nil (hs.perm [])
  simp only [GC, h1, h2, if_false, hempty, hnil]

/-- A second run of `GC` with `GcOlderThan` and the same cutoff finds nothing to
remove. -/
theorem GC_olderThan_idempotent (sortSort : List FileInfo → List FileInfo)
    (hs : SortContract sortSort) (listing : List FileInfo) (days now : Int) :
    ∃ sel, GC sortSort GcOlderThan days now (some listing) = .ok sel ∧
      GC sortSort GcOlderThan days now (some (listingAfter listing sel)) = .ok [] := by
  refine ⟨fileInfoSorter.YoungerThan ⟨sortSort listing⟩ (cutoff now days), rfl, ?_⟩
  have hgc : ∀ l, GC sortSort GcOlderThan days now (some l)
      = .ok (fileInfoSorter.YoungerThan ⟨sortSort l⟩ (cutoff now days)) := fun _ => rfl
  rw [hgc, YoungerThan_eq_filter _ _ (hs.pairwise _)]
  congr 1
  rw [List.filter_eq_nil_iff]
  intro r hr
  have hr1 := (hs.perm _).mem_iff.mp hr
  unfold listingAfter at hr1
  rw [List.mem_filter] at hr1
  obtain ⟨hin, hnot⟩ := hr1
  simp only [decide_eq_true_eq] at hnot ⊢
  intro hle
  apply hnot
  rw [YoungerThan_eq_filter _ _ (hs.pairwise _), List.mem_filter]
  exact ⟨(hs.perm listing).mem_iff.mpr hin, by simpa using hle⟩

/-- C16, the code at the failing input: with the files `a`, `b`, `c` modified at
100, 200, 300 and `GcKeepLatest` with parameter 1, the first run of `GC` removes
`c`, and a second run with the same policy, parameter and time on the listing
without `c` removes `b`. -/
theorem C16_keepLatest_second_run_removes_more :
    GC insertionSort GcKeepLatest 1 300 (some exampleListing) = .ok [⟨"c", 300⟩] ∧
    listingAfter exampleListing [⟨"c", 300⟩] = [⟨"a", 100⟩, ⟨"b", 200⟩] ∧
    GC insertionSort GcKeepLatest 1 300 (some (listingAfter exampleListing [⟨"c", 300⟩]))
      = .ok [⟨"b", 200⟩] := by
  decide

end commands

/-! ## Further theorems about `app/historyentries/keeper.go` -/

namespace historyentries

/-- C11: with four different mode constants, `getKeeper` returns a new `allKeeper`
for the mode `All`, a new `rangeKeeper` whose `start` and `finish` are the first two
parameters for `Range`, a new `singleKeeper` for `Single` and a new
`preciseNumberKeeper` whose target is the first parameter converted to `uint` for
`Precise`; for every other mode it fails with the panic of an unknown mode and
returns no keeper; and with the parameters of the mode supplied it fails if and only
if the mode is not one of the four. -/
theorem C11_getKeeper_dispatch (m : Modes) (hm : m.Distinct) (mode : Nat)
    (start finish : Int) (rest : List Int) :
    getKeeper m m.GetCommandsAll rest = .ok (Keeper.all ⟨0, [], []⟩) ∧
    getKeeper m m.GetCommandsRange (start :: finish :: rest)
      = .ok (Keeper.range ⟨Ptr.null, 0, start, finish, [], HistoryEntry.zero, []⟩) ∧
    getKeeper m m.GetCommandsSingle rest
      = .ok (Keeper.single ⟨Ptr.null, HistoryEntry.zero⟩) ∧
    getKeeper m m.GetCommandsPrecise (start :: rest)
      = .ok (Keeper.precise
          ⟨⟨Ptr.null, HistoryEntry.zero⟩, (start % 18446744073709551616).toNat⟩) ∧
    (¬ m.Known mode → ∀ varargs, getKeeper m mode varargs = .error GoPanic.unknownGetCommandsMode) ∧
    ((∃ err, getKeeper m mode (start :: finish :: rest) = .error err) ↔ ¬ m.Known mode) := by
  obtain ⟨h1, h2, h3, h4, h5, h6⟩ := hm
  have hunknown : ¬ m.Known mode → ∀ varargs,
      getKeeper m mode varargs = .error GoPanic.unknownGetCommandsMode := by
    intro hk varargs
    simp only [Modes.Known, not_or] at hk
    obtain ⟨k1, k2, k3, k4⟩ := hk
    simp only [getKeeper, k1, k2, k3, k4, if_false]
  refine ⟨?_, ?_, ?_, ?_, hunknown, ?_⟩
  · simp only [getKeeper, if_true, allKeeper.new]
  · simp only [getKeeper, h1.symm, if_false, if_true, rangeKeeper.SetLimits, rangeKeeper.new]
  · simp only [getKeeper, h2.symm, h4.symm, if_false, if_true, singleKeeper.new]
  · simp only [getKeeper, h3.symm, h5.symm, h6.symm, if_false, if_true,
      preciseNumberKeeper.SetNumber, preciseNumberKeeper.new, singleKeeper.new]
  · constructor
    · rintro ⟨err, herr⟩ hk
      rcases hk with hk | hk | hk | hk
      · subst hk; simp only [getKeeper, if_true] at herr; cases herr
      · subst hk; simp only [getKeeper, h1.symm, if_false, if_true] at herr; cases herr
      · subst hk; simp only [getKeeper, h2.symm, h4.symm, if_false, if_true] at herr; cases herr
      · subst hk
        simp only [getKeeper, h3.symm, h5.symm, h6.symm, if_false, if_true] at herr
        cases herr
    · intro hk
      exact ⟨_, hunknown hk _⟩

theorem C11_getKeeper_dispatch_witness :
    getKeeper exampleModes exampleModes.GetCommandsAll [] = .ok (Keeper.all ⟨0, [], []⟩) ∧
    getKeeper exampleModes exampleModes.GetCommandsRange (2 :: 5 :: [])
      = .ok (Keeper.range ⟨Ptr.null, 0, 2, 5, [], HistoryEntry.zero, []⟩) ∧
    getKeeper exampleModes exampleModes.GetCommandsSingle []
      = .ok (Keeper.single ⟨Ptr.null, HistoryEntry.zero⟩) ∧
    getKeeper exampleModes exampleModes.GetCommandsPrecise (2 :: [])
      = .ok (Keeper.precise
          ⟨⟨Ptr.null, HistoryEntry.zero⟩, ((2 : Int) % 18446744073709551616).toNat⟩) ∧
    (¬ exampleModes.Known 7 →
      ∀ varargs, getKeeper exampleModes 7 varargs = .error GoPanic.unknownGetCommandsMode) ∧
    ((∃ err, getKeeper exampleModes 7 (2 :: 5 :: []) = .error err) ↔ ¬ exampleModes.Known 7) :=
  C11_getKeeper_dispatch exampleModes (by decide) 7 2 5 []

/-- C17: the capacity `allKeeper.Init` reads is the value of the override when the
variable is set to a non-empty string that `strconv.Atoi` converts to an integer
above 0, and 5000 in every other case; so it is at least 1, and `Init`, on a
platform with any allocation limit, either fails in `make` because the capacity is
above the limit, or returns slot 0 of a buffer of that many entries: its access to
slot 0 is never out of range. -/
theorem C17_capacity_override (Getenv : String → String) (Atoi : String → Option Int)
    (makeLimit : Nat) :
    historyEventsCapacity Getenv Atoi =
      (if Getenv "HISTFILESIZE" ≠ "" ∧
          ∃ c, Atoi (Getenv "HISTFILESIZE") = some c ∧ 0 < c
        then (Atoi (Getenv "HISTFILESIZE")).getD 5000 else 5000) ∧
    1 ≤ historyEventsCapacity Getenv Atoi ∧
    allKeeper.Init makeLimit (historyEventsCapacity Getenv Atoi) allKeeper.new =
      (if historyEventsCapacity Getenv Atoi ≤ (makeLimit : Int) then
        .ok (⟨0, List.replicate (historyEventsCapacity Getenv Atoi).toNat HistoryEntry.zero,
          []⟩, Ptr.element 0)
      else .error GoPanic.makeSliceLenOutOfRange) ∧
    allKeeper.Init makeLimit (historyEventsCapacity Getenv Atoi) allKeeper.new
      ≠ .error GoPanic.indexOutOfRange := by
  have hcap : historyEventsCapacity Getenv Atoi =
      (if Getenv "HISTFILESIZE" ≠ "" ∧
          ∃ c, Atoi (Getenv "HISTFILESIZE") = some c ∧ 0 < c
        then (Atoi (Getenv "HISTFILESIZE")).getD 5000 else 5000) ∧
      1 ≤ historyEventsCapacity Getenv Atoi := by
    unfold historyEventsCapacity init defaultHistoryEventsCapacity
    simp only
    by_cases hne : Getenv "HISTFILESIZE" ≠ ""
    · rw [if_pos hne]
      cases hA : Atoi (Getenv "HISTFILESIZE") with
      | none => simp
      | some c =>
        by_cases hc : c > 0
        · simp only [hc, if_true, hne, Option.some.injEq, exists_eq_left', gt_iff_lt,
            and_self, ne_eq, not_false_eq_true, Option.getD_some]
          have : 0 < c := hc
          simp only [this, and_self, if_true, true_and]
          omega
        · simp only [hc, if_false, Option.some.injEq, exists_eq_left', gt_iff_lt]
          have : ¬ (0 < c) := hc
          simp [this]
    · rw [if_neg hne]
      simp [hne]
  have h2 : 0 < (List.replicate (historyEventsCapacity Getenv Atoi).toNat
      HistoryEntry.zero).length := by
    simp only [List.length_replicate]; omega
  have hinit : allKeeper.Init makeLimit (historyEventsCapacity Getenv Atoi) allKeeper.new =
      (if historyEventsCapacity Getenv Atoi ≤ (makeLimit : Int) then
        .ok (⟨0, List.replicate (historyEventsCapacity Getenv Atoi).toNat HistoryEntry.zero,
          []⟩, Ptr.element 0)
      else .error GoPanic.makeSliceLenOutOfRange) := by
    by_cases hle : historyEventsCapacity Getenv Atoi ≤ (makeLimit : Int)
    · have h1 : ¬ (historyEventsCapacity Getenv Atoi < 0 ∨
          (makeLimit : Int) < historyEventsCapacity Getenv Atoi) := by omega
      simp only [allKeeper.Init, makeSlice, h1, if_false, h2, if_true, allKeeper.new, hle]
    · have h1 : historyEventsCapacity Getenv Atoi < 0 ∨
          (makeLimit : Int) < historyEventsCapacity Getenv Atoi := by omega
      simp only [allKeeper.Init, makeSlice, h1, if_true, hle, if_false]
  refine ⟨hcap.1, hcap.2, hinit, ?_⟩
  rw [hinit]
  by_cases hle : historyEventsCapacity Getenv Atoi ≤ (makeLimit : Int)
  · rw [if_pos hle]
    exact fun h => by cases h
  · rw [if_neg hle]
    exact fun h => by cases h

/-- C20: for the `preciseNumberKeeper` with target 0, `Continue()` is false right
after `Init`, before any entry is written; for every target whose stored unsigned
value is not 0, in particular for every `int` target other than 0, `Continue()` is
true right after `Init`. -/
theorem C20_preciseNumber_continue_after_init (t : Int) :
    (∃ pnk slot, preciseNumberKeeper.Init (preciseNumberKeeper.new.SetNumber 0)
        = .ok (pnk, slot) ∧ preciseNumberKeeper.Continue pnk = .ok false) ∧
    (∃ pnk slot, preciseNumberKeeper.Init (preciseNumberKeeper.new.SetNumber t)
        = .ok (pnk, slot) ∧
      preciseNumberKeeper.Continue pnk
        = .ok (decide ((preciseNumberKeeper.new.SetNumber t).preciseNumber ≠ 0))) ∧
    (IsInt64 t → t ≠ 0 → (preciseNumberKeeper.new.SetNumber t).preciseNumber ≠ 0) := by
  refine ⟨⟨_, _, rfl, rfl⟩, ⟨_, _, rfl, ?_⟩, ?_⟩
  · simp only [preciseNumberKeeper.Continue, singleKeeper.load, HistoryEntry.zero,
      preciseNumberKeeper.SetNumber, preciseNumberKeeper.new]
    congr 1
    by_cases h : (t % 18446744073709551616).toNat = 0
    · simp [h]
    · simp only [h, ne_eq, not_false_eq_true, decide_True, bne_iff_ne]
      exact fun h2 => h h2.symm
  · intro ht h0
    unfold IsInt64 at ht
    simp only [preciseNumberKeeper.SetNumber, preciseNumberKeeper.new]
    omega

/-- Every reachable state of an `allKeeper` satisfies `AllInv`. -/
theorem allKeeper_reachable (c : Int) (ak : allKeeper) (slot : Ptr) (done : List HistoryEntry)
    (h : Reachable (allKeeper.ops c) allKeeper.new ak slot done) : AllInv done ak slot := by
  induction h with
  | init hinit =>
    by_cases hc : 1 ≤ c
    · obtain ⟨ak0, hi, hinv⟩ := allKeeper_init c hc
      rw [hi] at hinit
      cases hinit
      exact hinv
    · exfalso
      simp only [allKeeper.ops, allKeeper.InitUnbounded, List.length_replicate] at hinit
      by_cases h0 : c < 0
      · simp only [h0, if_true] at hinit
        cases hinit
      · have : ¬ (0 < c.toNat) := by omega
        simp only [h0, if_false, this] at hinit
        cases hinit
  | round _ _ hstore hcommit ih =>
    obtain ⟨k1, k2, slot2, hs, hcm, hinv⟩ := allKeeper_round c _ _ _ _ ih
    rw [hs] at hstore
    cases hstore
    rw [hcm] at hcommit
    cases hcommit
    exact hinv

/-- Every reachable state of a `rangeKeeper` with limits `s ≤ f` satisfies `RangeInv`,
with at most `f` entries committed. -/
theorem rangeKeeper_reachable (s f : Nat) (hsf : s ≤ f) (rk : rangeKeeper) (slot : Ptr)
    (done : List HistoryEntry)
    (h : Reachable rangeKeeper.ops (rangeKeeper.new.SetLimits s f) rk slot done) :
    RangeInv s f done rk slot ∧ done.length ≤ f := by
  induction h with
  | init hinit =>
    obtain ⟨rk0, hi, hinv⟩ := rangeKeeper_init s f hsf
    rw [hi] at hinit
    cases hinit
    exact ⟨hinv, Nat.zero_le _⟩
  | @round k0 k1 k2 slot0 slot2 done0 e _ hcont hstore hcommit ih =>
    obtain ⟨hinv0, _⟩ := ih
    have hlt : done0.length < f := by
      have hc := rangeKeeper_continue s f _ _ _ hinv0
      rw [hc] at hcont
      simpa using hcont
    obtain ⟨k1, k2, slot2, hs, hcm, hinv⟩ := rangeKeeper_round s f hsf _ _ _ _ hinv0 hlt
    rw [hs] at hstore
    cases hstore
    rw [hcm] at hcommit
    cases hcommit
    refine ⟨hinv, ?_⟩
    simp only [List.length_append, List.length_cons, List.length_nil]
    omega

/-- Reachability passes from one set of operations to another that has the same
`Continue`, `store` and `Commit` and an `Init` that returns whatever the first
returns. -/
theorem Reachable_transfer {σ ρ : Type} (K K2 : KeeperOps σ ρ) (k : σ)
    (hinit : ∀ k0 slot, K.Init k = .ok (k0, slot) → K2.Init k = .ok (k0, slot))
    (hcont : K.Continue = K2.Continue) (hstore : K.store = K2.store)
    (hcommit : K.Commit = K2.Commit) {k1 : σ} {slot : Ptr} {done : List HistoryEntry}
    (h : Reachable K k k1 slot done) : Reachable K2 k k1 slot done := by
  induction h with
  | init hi => exact Reachable.init (hinit _ _ hi)
  | round _ hc hs hcm ih =>
    exact Reachable.round ih (hcont ▸ hc) (hstore ▸ hs) (hcommit ▸ hcm)

/-- A state of the `allKeeper` reachable on a platform with an allocation limit is
reachable without the limit. -/
theorem allKeeper_reachable_of_on (makeLimit : Nat) (c : Int) (ak : allKeeper) (slot : Ptr)
    (done : List HistoryEntry)
    (h : Reachable (allKeeper.opsOn makeLimit c) allKeeper.new ak slot done) :
    Reachable (allKeeper.ops c) allKeeper.new ak slot done := by
  refine Reachable_transfer (allKeeper.opsOn makeLimit c) (allKeeper.ops c) _ ?_ rfl rfl rfl h
  intro k0 slot0 hi
  by_cases hle : c ≤ (makeLimit : Int)
  · rw [← hi]
    exact (allKeeper_Init_eq_InitUnbounded makeLimit c allKeeper.new hle).symm
  · exfalso
    have h3 : c < 0 ∨ (makeLimit : Int) < c := by omega
    simp only [allKeeper.opsOn, allKeeper.Init, makeSlice, h3, if_true] at hi
    cases hi

/-- A state of the `Range(start, finish)` keeper with `0 ≤ start ≤ finish` and an
`int` `finish` reachable on a platform with an allocation limit is reachable with
the exact buffer length and without the limit. -/
theorem rangeKeeper_reachable_of_on (makeLimit : Nat) (start finish : Int) (h0 : 0 ≤ start)
    (hsf : start ≤ finish) (hf : IsInt64 finish) (rk : rangeKeeper) (slot : Ptr)
    (done : List HistoryEntry)
    (h : Reachable (rangeKeeper.opsOn makeLimit) (rangeKeeper.new.SetLimits start finish)
      rk slot done) :
    Reachable rangeKeeper.ops (rangeKeeper.new.SetLimits start finish) rk slot done := by
  refine Reachable_transfer (rangeKeeper.opsOn makeLimit) rangeKeeper.ops _ ?_ rfl rfl rfl h
  intro k0 slot0 hi
  unfold IsInt64 at hf
  by_cases hle : finish - start + 1 < 9223372036854775808 ∧
      finish - start + 1 ≤ (makeLimit : Int)
  · rw [← hi]
    refine (rangeKeeper_Init_eq_InitUnbounded makeLimit _ ?_ ?_).symm
    · simp only [rangeKeeper.SetLimits, rangeKeeper.new, IsInt64]
      omega
    · simp only [rangeKeeper.SetLimits, rangeKeeper.new]
      exact hle.2
  · exfalso
    have h3 : wrapInt64 (finish - start + 1) < 0 ∨
        (makeLimit : Int) < wrapInt64 (finish - start + 1) := by
      unfold wrapInt64
      omega
    simp only [rangeKeeper.opsOn, rangeKeeper.Init, rangeKeeper.SetLimits, rangeKeeper.new,
      makeSlice, h3, if_true] at hi
    cases hi

/-- Every reachable state of a `rangeKeeper` with `finish < start` satisfies
`RangeIdleInv` for the buffer `Init` made, with at most `finish` entries
committed. -/
theorem rangeKeeper_reachable_idle (makeLimit : Nat) (start finish : Int)
    (hlt : finish < start) (rk : rangeKeeper) (slot : Ptr) (done : List HistoryEntry)
    (h : Reachable (rangeKeeper.opsOn makeLimit) (rangeKeeper.new.SetLimits start finish)
      rk slot done) :
    ∃ buffer, RangeIdleInv start finish buffer done rk slot ∧
      (done.length : Int) ≤ max finish 0 := by
  induction h with
  | init hinit =>
    simp only [rangeKeeper.opsOn, rangeKeeper.Init, rangeKeeper.SetLimits,
      rangeKeeper.new] at hinit
    generalize makeSlice makeLimit (wrapInt64 (finish - start + 1)) = made at hinit
    cases made with
    | error err => cases hinit
    | ok entries =>
      simp only [Except.ok.injEq, Prod.mk.injEq] at hinit
      obtain ⟨hk, hslot⟩ := hinit
      subst hk hslot
      exact ⟨entries, ⟨rfl, rfl, rfl, rfl, rfl, rfl⟩, by simp⟩
  | @round k0 k1 k2 slot0 slot2 done0 e _ hcont hstore hcommit ih =>
    obtain ⟨buffer, hinv0, _⟩ := ih
    have hc : (done0.length : Int) < finish := by
      obtain ⟨_, hfi, hci, _⟩ := hinv0
      simp only [rangeKeeper.opsOn, rangeKeeper.Continue, hfi, hci] at hcont
      simpa using hcont
    obtain ⟨k3, k4, slot4, hs, hcm, hinv⟩ :=
      rangeKeeper_round_idle start finish hlt buffer _ _ _ e hinv0
    have hstore2 : rangeKeeper.store k0 slot0 e = .ok k1 := hstore
    rw [hs] at hstore2
    cases hstore2
    have hcommit2 : rangeKeeper.Commit k1 slot0 = .ok (k2, slot2) := hcommit
    rw [hcm] at hcommit2
    cases hcommit2
    refine ⟨buffer, hinv, ?_⟩
    simp only [List.length_append, List.length_cons, List.length_nil]
    push_cast
    omega

/-- C19: for every `0 ≤ start ≤ finish`, in every state of the `Range(start, finish)`
keeper reachable under the protocol the buffer has `finish - start + 1` slots and
`currentIndex`, the number of commits, is at most `finish`; when `Continue()` is
true there, the two buffer indices of `Commit`, `currentIndex - start` and
`currentIndex - start + 1`, are inside the buffer whenever `Commit` uses them, and
the round of write and `Commit` completes without failure. -/
theorem C19_range_commit_in_bounds (start finish : Int) (h0 : 0 ≤ start)
    (hsf : start ≤ finish) (rk : rangeKeeper) (slot : Ptr) (done : List HistoryEntry)
    (h : Reachable rangeKeeper.ops (rangeKeeper.new.SetLimits start finish) rk slot done) :
    (rk.entries.length : Int) = finish - start + 1 ∧
    rk.currentIndex = (done.length : Int) ∧ rk.currentIndex ≤ finish ∧
    (rangeKeeper.Continue rk = .ok true → start ≤ rk.currentIndex →
      0 ≤ rk.currentIndex - start ∧
      rk.currentIndex - start + 1 < (rk.entries.length : Int)) ∧
    (rangeKeeper.Continue rk = .ok true → ∀ e, ∃ k1 k2 slot2,
      rangeKeeper.store rk slot e = .ok k1 ∧ rangeKeeper.Commit k1 slot = .ok (k2, slot2)) := by
  lift start to Nat using h0 with s
  lift finish to Nat using (le_trans (Int.natCast_nonneg s) hsf) with f
  have hsf1 : s ≤ f := by omega
  obtain ⟨hinv, hlen⟩ := rangeKeeper_reachable s f hsf1 rk slot done h
  have hcont := rangeKeeper_continue s f done rk slot hinv
  simp only [rangeKeeper.ops] at hcont
  obtain ⟨hst, hfi, hci, _, _, hents⟩ := hinv
  have hel : (rk.entries.length : Int) = (f : Int) - (s : Int) + 1 := by
    rw [hents, List.length_append, List.length_drop, List.length_replicate]
    push_cast
    omega
  refine ⟨hel, hci, by omega, ?_, ?_⟩
  · intro hc hs
    rw [hcont] at hc
    have hlt : done.length < f := by simpa using hc
    rw [hel, hci]
    rw [hci] at hs
    omega
  · intro hc e
    rw [hcont] at hc
    have hlt : done.length < f := by simpa using hc
    obtain ⟨k1, k2, slot2, hs, hcm, _⟩ :=
      rangeKeeper_round s f hsf1 done rk slot e ⟨hst, hfi, hci, ‹_›, ‹_›, hents⟩ hlt
    exact ⟨k1, k2, slot2, hs, hcm⟩

theorem exampleRangeState_reachable :
    Reachable rangeKeeper.ops (rangeKeeper.new.SetLimits 1 3) exampleRangeState (Ptr.element 1)
      (([] ++ [⟨0, "cmd", false⟩]) ++ [⟨1, "cmd", false⟩]) :=
  Reachable.round (Reachable.round (Reachable.init rfl) rfl rfl rfl) rfl rfl rfl

theorem exampleRangeState_reachable_on :
    Reachable (rangeKeeper.opsOn 1000) (rangeKeeper.new.SetLimits 1 3) exampleRangeState
      (Ptr.element 1) (([] ++ [⟨0, "cmd", false⟩]) ++ [⟨1, "cmd", false⟩]) :=
  Reachable.round (Reachable.round (Reachable.init rfl) rfl rfl rfl) rfl rfl rfl

theorem exampleAllState_reachable_on :
    Reachable (allKeeper.opsOn 1000 2) allKeeper.new exampleAllState (Ptr.element 1)
      ([] ++ [⟨0, "cmd", false⟩]) :=
  Reachable.round (Reachable.init rfl) rfl rfl rfl

theorem C19_range_commit_in_bounds_witness :
    (rangeKeeper.Continue exampleRangeState = .ok true ∧
      (1 : Int) ≤ exampleRangeState.currentIndex) ∧
    (exampleRangeState.entries.length : Int) = 3 - 1 + 1 ∧
    exampleRangeState.currentIndex
      = (([⟨0, "cmd", false⟩, ⟨1, "cmd", false⟩] : List HistoryEntry).length : Int) ∧
    exampleRangeState.currentIndex ≤ 3 ∧
    (rangeKeeper.Continue exampleRangeState = .ok true → 1 ≤ exampleRangeState.currentIndex →
      0 ≤ exampleRangeState.currentIndex - 1 ∧
      exampleRangeState.currentIndex - 1 + 1 < (exampleRangeState.entries.length : Int)) ∧
    (rangeKeeper.Continue exampleRangeState = .ok true → ∀ e, ∃ k1 k2 slot2,
      rangeKeeper.store exampleRangeState (Ptr.element 1) e = .ok k1 ∧
      rangeKeeper.Commit k1 (Ptr.element 1) = .ok (k2, slot2)) :=
  ⟨by decide,
    C19_range_commit_in_bounds 1 3 (by decide) (by decide) exampleRangeState (Ptr.element 1) _
      exampleRangeState_reachable⟩

/-- C15 as stated fails: the `Range(-2, 3)` keeper driven over three entries returns
five entries, and the first two are zero entries that were never committed. -/
theorem C15_counterexample :
    retrieve (rangeKeeper.opsOn 1000) (rangeKeeper.new.SetLimits (-2) 3)
        (exampleEntries.take 3)
      = .ok [HistoryEntry.zero, HistoryEntry.zero, ⟨0, "cmd", false⟩, ⟨1, "cmd", false⟩,
          ⟨2, "cmd", false⟩] ∧
    HistoryEntry.zero ∉ exampleEntries.take 3 := by
  decide

/-- C15 as amended: on a platform with any allocation limit, in every state of the
`allKeeper` reachable under the protocol `Result()` is exactly the committed
entries, in order, and the slot handed out lies after them; in every state of the
`Range(start, finish)` keeper with `start ≥ 0` and an `int` `finish` reachable under
the protocol, whenever `Result()` returns, it is exactly the committed entries from
position `start` on, so each of its elements is a committed entry, and the slot
handed out is not one of the slots it returns; for `start ≤ finish` it returns once
`start` entries are committed and fails with a slice bound out of range before. -/
theorem C15_result_is_committed (makeLimit : Nat) (c : Int) (ak : allKeeper) (slotA : Ptr)
    (doneA : List HistoryEntry)
    (hA : Reachable (allKeeper.opsOn makeLimit c) allKeeper.new ak slotA doneA)
    (start finish : Int) (h0 : 0 ≤ start) (hf : IsInt64 finish) (rk : rangeKeeper)
    (slotR : Ptr) (doneR : List HistoryEntry)
    (hR : Reachable (rangeKeeper.opsOn makeLimit) (rangeKeeper.new.SetLimits start finish)
      rk slotR doneR) :
    (allKeeper.Result ak = .ok doneA ∧ slotA.OutsideResult doneA.length) ∧
    (∀ r, rangeKeeper.Result rk = .ok r →
      r = doneR.drop start.toNat ∧ (∀ x ∈ r, x ∈ doneR) ∧ slotR.OutsideResult r.length) ∧
    (start ≤ finish →
      rangeKeeper.Result rk =
        if start ≤ (doneR.length : Int) then .ok (doneR.drop start.toNat)
        else .error GoPanic.sliceBoundsOutOfRange) := by
  have hAinv := allKeeper_reachable c ak slotA doneA
    (allKeeper_reachable_of_on makeLimit c ak slotA doneA hA)
  refine ⟨⟨allKeeper_result doneA ak slotA hAinv, ?_⟩, ?_⟩
  · rw [hAinv.2.1]
    exact Nat.le_refl _
  · by_cases hsf : start ≤ finish
    · have hR2 := rangeKeeper_reachable_of_on makeLimit start finish h0 hsf hf rk slotR doneR hR
      lift start to Nat using h0 with s
      lift finish to Nat using (le_trans (Int.natCast_nonneg s) hsf) with f
      have hsf1 : s ≤ f := by omega
      obtain ⟨hinv, hlen⟩ := rangeKeeper_reachable s f hsf1 rk slotR doneR hR2
      have hres : rangeKeeper.Result rk =
          if (s : Int) ≤ (doneR.length : Int) then .ok (doneR.drop s)
          else .error GoPanic.sliceBoundsOutOfRange := by
        by_cases hs : (s : Int) ≤ (doneR.length : Int)
        · rw [if_pos hs]
          exact rangeKeeper_result s f doneR rk slotR hinv (by omega)
        · rw [if_neg hs]
          obtain ⟨hst, _, hci, _, _, _⟩ := hinv
          have hneg : ¬ (0 ≤ rk.currentIndex - rk.start ∧
              rk.currentIndex - rk.start ≤ (rk.entries.length : Int)) := by
            rw [hst, hci]; omega
          simp only [rangeKeeper.Result, hneg, if_false]
      refine ⟨?_, fun _ => by simpa using hres⟩
      intro r hr
      rw [hres] at hr
      by_cases hs : (s : Int) ≤ (doneR.length : Int)
      · rw [if_pos hs] at hr
        cases hr
        refine ⟨by simp, fun x hx => List.mem_of_mem_drop hx, ?_⟩
        obtain ⟨_, _, _, _, hslot, _⟩ := hinv
        rw [hslot]
        by_cases hle : doneR.length ≤ s
        · rw [if_pos hle]; trivial
        · rw [if_neg hle]
          simp only [Ptr.OutsideResult, List.length_drop]
          exact Nat.le_refl _
      · rw [if_neg hs] at hr
        cases hr
    · have hlt : finish < start := by omega
      obtain ⟨buffer, hinv, hmax⟩ :=
        rangeKeeper_reachable_idle makeLimit start finish hlt rk slotR doneR hR
      obtain ⟨hst, _, hci, hcur, hslot, hents⟩ := hinv
      refine ⟨?_, fun h => absurd h hsf⟩
      intro r hr
      simp only [rangeKeeper.Result, hst, hci] at hr
      by_cases hz : (0 : Int) ≤ (doneR.length : Int) - start ∧
          (doneR.length : Int) - start ≤ (rk.entries.length : Int)
      · rw [if_pos hz] at hr
        cases hr
        have hd : doneR.length ≤ start.toNat := by omega
        have ht : ((doneR.length : Int) - start).toNat = 0 := by omega
        rw [ht, List.take_zero]
        refine ⟨(List.drop_eq_nil_of_le hd).symm, fun x hx => absurd hx (List.not_mem_nil x), ?_⟩
        rw [hslot]
        trivial
      · rw [if_neg hz] at hr
        cases hr

theorem C15_result_is_committed_witness :
    rangeKeeper.Result exampleRangeState = .ok [⟨1, "cmd", false⟩] ∧
    (allKeeper.Result exampleAllState = .ok ([] ++ [⟨0, "cmd", false⟩]) ∧
      (Ptr.element 1).OutsideResult (([] ++ [⟨0, "cmd", false⟩]) : List HistoryEntry).length) ∧
    (∀ r, rangeKeeper.Result exampleRangeState = .ok r →
      r = ((([] ++ [⟨0, "cmd", false⟩]) ++ [⟨1, "cmd", false⟩]) : List HistoryEntry).drop
          (1 : Int).toNat ∧
      (∀ x ∈ r, x ∈ ((([] ++ [⟨0, "cmd", false⟩]) ++ [⟨1, "cmd", false⟩]) :
          List HistoryEntry)) ∧
      (Ptr.element 1).OutsideResult r.length) ∧
    ((1 : Int) ≤ 3 →
      rangeKeeper.Result exampleRangeState =
        if (1 : Int) ≤ (((([] ++ [⟨0, "cmd", false⟩]) ++ [⟨1, "cmd", false⟩]) :
            List HistoryEntry).length : Int)
        then .ok (((([] ++ [⟨0, "cmd", false⟩]) ++ [⟨1, "cmd", false⟩]) :
            List HistoryEntry).drop (1 : Int).toNat)
        else .error GoPanic.sliceBoundsOutOfRange) :=
  ⟨by decide,
    C15_result_is_committed 1000 2 exampleAllState (Ptr.element 1) _
      exampleAllState_reachable_on 1 3 (by decide) (by decide) exampleRangeState
      (Ptr.element 1) _ exampleRangeState_reachable_on⟩

end historyentries

/-! ## Theorems about `app/history_entries/history_processor.go` -/

namespace history_entries

open commands historyentries

/-- A name is a key of the map built from a listing exactly when it was a key before
or it is the name of a file of the listing. -/
theorem foldl_insert_isSome (files : List FileInfo) :
    ∀ (entries : StringMap) (key : String),
      ((files.foldl (fun acc file => acc.insert file.name true) entries) key).isSome = true ↔
        (entries key).isSome = true ∨ key ∈ files.map (fun file => file.name) := by
  induction files with
  | nil => intro entries key; simp
  | cons file rest ih =>
    intro entries key
    rw [List.foldl_cons, ih (entries.insert file.name true) key]
    simp only [StringMap.insert, List.map_cons, List.mem_cons]
    by_cases hk : key = file.name
    · simp [hk]
    · simp [hk]

/-- C13: for every directory snapshot and every sequence of entries consumed by the
goroutine of `processHistories`, each with `hasHistory` false at first, the
goroutine receives every entry, changes nothing but `hasHistory`, leaves
`hasHistory` true exactly on the entries whose derived trace name is the name of a
file of the snapshot, and then signals completion once. -/
theorem C13_correlator_marks_existing (files : List FileInfo)
    (GetTraceName : HistoryEntry → String) (sent : List HistoryEntry)
    (hfalse : ∀ e ∈ sent, e.hasHistory = false) :
    (processHistories (some files) GetTraceName sent).entries
      = sent.map (fun e =>
          { e with hasHistory := decide (GetTraceName e ∈ files.map (fun file => file.name)) }) ∧
    (processHistories (some files) GetTraceName sent).received = sent.length ∧
    (processHistories (some files) GetTraceName sent).resultChan = [true] := by
  refine ⟨?_, rfl, rfl⟩
  simp only [processHistories]
  apply List.map_congr_left
  intro e he
  have hfe := hfalse e he
  have key := foldl_insert_isSome files (fun _ => none) (GetTraceName e)
  simp only [Option.isSome_none, Bool.false_eq_true, false_or] at key
  obtain ⟨number, payload, hasHistory⟩ := e
  simp only at hfe
  subst hfe
  by_cases hin : GetTraceName ⟨number, payload, false⟩ ∈ files.map (fun file => file.name)
  · rw [if_pos (key.mpr hin)]
    simp only [hin, decide_True]
  · rw [if_neg (fun h => hin (key.mp h))]
    simp only [hin, decide_False]

theorem C13_correlator_marks_existing_witness :
    (processHistories (some exampleSnapshot) (fun e => e.payload) exampleSent).entries
      = exampleSent.map (fun e =>
          { e with hasHistory :=
              decide ((fun e => e.payload) e ∈ exampleSnapshot.map (fun file => file.name)) }) ∧
    (processHistories (some exampleSnapshot) (fun e => e.payload) exampleSent).received
      = exampleSent.length ∧
    (processHistories (some exampleSnapshot) (fun e => e.payload) exampleSent).resultChan
      = [true] :=
  C13_correlator_marks_existing exampleSnapshot (fun e => e.payload) exampleSent (by decide)

/-- C14: when the directory listing fails, the goroutine of `processHistories` logs
one warning, signals completion once on `resultChan`, receives no entry, and leaves
every entry as it was sent, `hasHistory` included. -/
theorem C14_correlator_listing_failure (GetTraceName : HistoryEntry → String)
    (sent : List HistoryEntry) :
    (processHistories none GetTraceName sent).resultChan = [true] ∧
    (processHistories none GetTraceName sent).received = 0 ∧
    (processHistories none GetTraceName sent).entries = sent ∧
    (processHistories none GetTraceName sent).warnings = 1 :=
  ⟨rfl, rfl, rfl, rfl⟩

end history_entries

end Ah
